import Mathlib

/-!
Verification development for the `js-geo-web` content package
(`src/packages/content/src/raw/index.ts`).

The development shallowly embeds the mutation/retrieval core:

* `JSValue` models the dynamic JavaScript/IPLD values manipulated by the code
  (objects, arrays, scalars, `null`, `undefined`, and CID links).  Arrays and
  objects use the dedicated `JSArr`/`JSObj` types so that all functions stay
  structurally recursive (hence computable by `rfl`/`decide`).
* The block store is modelled as a list of values indexed by natural-number
  CIDs; `storePut` is content addressed (storing an already-present value
  returns the existing index).
* `putInner` is the faithful translation of the in-source `putInnerPath`
  helper; `putPathStep`/`putPath` translate the recursive `putPath` method,
  `get` the retrieval method, and `resolveRoot`/`commit`/`initRoot` the root
  lifecycle.
* External collaborators (the IPFS dag resolver, the Ceramic pointer service,
  the schema transform service, the gateway) are not part of the repository
  source; they are modelled from the spec's interface contracts and marked as
  such in their doc comments.

String manipulation (`split`, first-occurrence `replace`) is implemented on
`List Char` to mirror the JavaScript string semantics exactly.
-/

namespace GeoWeb

mutual
/-- Dynamic JavaScript/IPLD value: `null`, `undefined`, booleans, numbers
(modelled as integers; no claim involves float behaviour), strings, CID links
(natural-number block-store indices), arrays and string-keyed objects. -/
inductive JSValue where
  | vnull : JSValue
  | vundefined : JSValue
  | vbool : Bool → JSValue
  | vnum : Int → JSValue
  | vstr : String → JSValue
  | vlink : Nat → JSValue
  | varr : JSArr → JSValue
  | vobj : JSObj → JSValue
/-- JavaScript array of values. -/
inductive JSArr where
  | anil : JSArr
  | acons : JSValue → JSArr → JSArr
/-- JavaScript object as an ordered key/value list (keys unique). -/
inductive JSObj where
  | onil : JSObj
  | ocons : String → JSValue → JSObj → JSObj
end

deriving instance DecidableEq for JSValue, JSArr, JSObj

/-- Build a `JSArr` from a Lean list (notation helper). -/
def arrOf : List JSValue → JSArr
  | [] => .anil
  | x :: xs => .acons x (arrOf xs)

/-- Build a `JSObj` from a Lean association list (notation helper). -/
def objOf : List (String × JSValue) → JSObj
  | [] => .onil
  | (k, v) :: rest => .ocons k v (objOf rest)

/-- JavaScript truthiness, as used by `filter((v) => v)` and the
`if (newValue && ...)` guard. -/
def truthy : JSValue → Bool
  | .vnull => false
  | .vundefined => false
  | .vbool b => b
  | .vnum n => n != 0
  | .vstr s => s != ""
  | .vlink _ => true
  | .varr _ => true
  | .vobj _ => true

/-- Loose equality with `null` (`data == null`), true for both `null` and
`undefined`. -/
def isNullish : JSValue → Bool
  | .vnull => true
  | .vundefined => true
  | _ => false

/-- Array length. -/
def alen : JSArr → Nat
  | .anil => 0
  | .acons _ tl => alen tl + 1

/-- Array indexing. -/
def aget : JSArr → Nat → Option JSValue
  | .anil, _ => none
  | .acons x _, 0 => some x
  | .acons _ tl, n + 1 => aget tl n

/-- In-range array update (no-op past the end). -/
def aset : JSArr → Nat → JSValue → JSArr
  | .anil, _, _ => .anil
  | .acons _ tl, 0, v => .acons v tl
  | .acons x tl, n + 1, v => .acons x (aset tl n v)

/-- Array concatenation. -/
def aappend : JSArr → JSArr → JSArr
  | .anil, ys => ys
  | .acons x tl, ys => .acons x (aappend tl ys)

/-- Array of `n` holes (`undefined`). -/
def arep : Nat → JSArr
  | 0 => .anil
  | n + 1 => .acons .vundefined (arep n)

/-- Write at array index `i`, extending the array with holes (`undefined`)
when `i` is past the end, as JavaScript sparse assignment does. -/
def setIdx (xs : JSArr) (i : Nat) (v : JSValue) : JSArr :=
  if i < alen xs then aset xs i v
  else aappend xs (aappend (arep (i - alen xs)) (.acons v .anil))

/-- Delete array index `i`: JavaScript `delete arr[i]` leaves a hole that
reads back as `undefined` and keeps the length. -/
def delIdx (xs : JSArr) (i : Nat) : JSArr :=
  if i < alen xs then aset xs i .vundefined else xs

/-- The compaction filter `newValue.filter((v) => v)`: keeps exactly the
truthy entries, in order. -/
def afilter : JSArr → JSArr
  | .anil => .anil
  | .acons x tl => if truthy x then .acons x (afilter tl) else afilter tl

/-- Lookup in an object (first match). -/
def olookup : JSObj → String → Option JSValue
  | .onil, _ => none
  | .ocons k' w rest, k => if k' = k then some w else olookup rest k

/-- Set a key in an object: replace in place if present, append otherwise. -/
def oset : JSObj → String → JSValue → JSObj
  | .onil, k, v => .ocons k v .onil
  | .ocons k' w rest, k, v =>
    if k' = k then .ocons k v rest else .ocons k' w (oset rest k v)

/-- Remove a key from an object. -/
def odel : JSObj → String → JSObj
  | .onil, _ => .onil
  | .ocons k' w rest, k => if k' = k then rest else .ocons k' w (odel rest k)

/-- Value of a canonical array-index string (all digits, no leading zero),
mirroring which string keys JavaScript treats as array indices. -/
def toIndex (s : String) : Option Nat :=
  match s.data with
  | [] => none
  | c :: rest =>
    if (c :: rest).all Char.isDigit && (c != '0' || rest.isEmpty) then
      some ((c :: rest).foldl (fun n d => n * 10 + (d.toNat - 48)) 0)
    else none

/-- Property read `node[key]` as used by `putInnerPath`: reading on `null` or
`undefined` throws (`none`); a missing property reads as `undefined`. -/
def getFieldE : JSValue → String → Option JSValue
  | .vnull, _ => none
  | .vundefined, _ => none
  | .vobj fs, k => some ((olookup fs k).getD .vundefined)
  | .varr xs, k =>
    some (match toIndex k with
          | some i => (aget xs i).getD .vundefined
          | none => .vundefined)
  | _, _ => some .vundefined

/-- Property assignment `node[key] = v` (strict-mode semantics): fails with a
TypeError on `null`/`undefined` and on primitives; named (non-index)
properties assigned on arrays are dropped by the dag-cbor encoder, so they
are modelled as no-ops; assignment on a CID object is never exercised by the
code and is modelled as an error. -/
def setField : JSValue → String → JSValue → Option JSValue
  | .vobj fs, k, v => some (.vobj (oset fs k v))
  | .varr xs, k, v =>
    some (match toIndex k with
          | some i => .varr (setIdx xs i v)
          | none => .varr xs)
  | _, _, _ => none

/-- Property deletion `delete node[key]`: throws on `null`/`undefined`,
removes object keys, punches an `undefined` hole in arrays, and is a no-op on
other values. -/
def delField : JSValue → String → Option JSValue
  | .vnull, _ => none
  | .vundefined, _ => none
  | .vobj fs, k => some (.vobj (odel fs k))
  | .varr xs, k =>
    some (match toIndex k with
          | some i => .varr (delIdx xs i)
          | none => .varr xs)
  | v, _ => some v

/-- Presence-style property lookup used by IPLD path traversal: `some` only
when the segment names an existing object key or in-range array index. -/
def getFieldPure : JSValue → String → Option JSValue
  | .vobj fs, k => olookup fs k
  | .varr xs, k =>
    match toIndex k with
    | some i => aget xs i
    | none => none
  | _, _ => none

/-- JavaScript `s.split("/")` on the character list: always non-empty, one
entry per slash-separated (possibly empty) component. -/
def splitSlash : List Char → List String
  | [] => [""]
  | c :: rest =>
    if c = '/' then "" :: splitSlash rest
    else
      match splitSlash rest with
      | [] => [""]
      | s :: ss => String.mk (c :: s.data) :: ss

/-- JavaScript `path.split("/")`. -/
def jsSplit (s : String) : List String := splitSlash s.data

/-- Join segments with `"/"` (the character-level `Array.join("/")`). -/
def joinSegsChars : List String → List Char
  | [] => []
  | [s] => s.data
  | s :: rest => s.data ++ '/' :: joinSegsChars rest

/-- Join segments with `"/"`. -/
def joinSegs (L : List String) : String := String.mk (joinSegsChars L)

/-- Leading-slash path for a segment list, e.g. `pathOf ["a","b"] = "/a/b"`. -/
def pathOf (L : List String) : String := String.mk ('/' :: joinSegsChars L)

/-- Remove the first occurrence of `pat` from `l` (character-level semantics
of JavaScript `String.prototype.replace` with a plain-string pattern and an
empty replacement). -/
def replFirst : List Char → List Char → List Char
  | [], _ => []
  | c :: rest, pat =>
    if pat.isPrefixOf (c :: rest) then (c :: rest).drop pat.length
    else c :: replFirst rest pat

/-- JavaScript `s.replace(pat, "")`. -/
def replaceFirst (s pat : String) : String := String.mk (replFirst s.data pat.data)

/-- String concatenation (template-literal splicing). -/
def strCat (a b : String) : String := String.mk (a.data ++ b.data)

/-- Content-addressed block store: CIDs are indices into the list of stored
values. -/
def storeGet (s : List JSValue) (c : Nat) : Option JSValue := s[c]?

/-- Index of the first occurrence of a value in the store. -/
def idxOf? : List JSValue → JSValue → Option Nat
  | [], _ => none
  | w :: rest, v => if w = v then some 0 else (idxOf? rest v).map (· + 1)

/-- Modelled from the spec: `ipfs.dag.put` on the content-addressable block
store — deterministic content addressing means storing an already-present
value returns its existing CID, otherwise the value is appended under a fresh
CID. -/
def storePut (s : List JSValue) (v : JSValue) : List JSValue × Nat :=
  match idxOf? s v with
  | some i => (s, i)
  | none => (s ++ [v], s.length)

/-- Observable I/O effects, recorded in order: one `enter` per `putPath`
invocation, `resolveCall`/`getBlock` for dag resolution and block reads,
`putBlock` for `dag.put`, `putRaw` for the gateway-fallback `block.put`,
`uploadE` for a CAR upload, and the Ceramic pointer-service calls. -/
inductive Eff where
  | enter : String → Eff
  | resolveCall : String → Eff
  | getBlock : Nat → Eff
  | putBlock : JSValue → Eff
  | putRaw : JSValue → Eff
  | uploadE : JSArr → Eff
  | ceramicResolve : String → String → Eff
  | ceramicUpdate : String → String → String → Eff
deriving DecidableEq

/-- Mutable world state: the local block store, the Ceramic pointer service
(a map from (ownerDID, parcelId) to the stored root-CID string, modelled from
the spec's versioned pointer-service contract), and the recorded effect
trace. -/
structure PState where
  store : List JSValue
  ceramic : List ((String × String) × String)
  trace : List Eff
deriving DecidableEq

/-- Modelled from the spec: a named schema's bidirectional transform
(`toRepresentation` / `toTyped`), with `undefined` as the failure sentinel
exactly as in the dynamic source. -/
structure SchemaConv where
  toRep : JSValue → JSValue
  toTy : JSValue → JSValue

/-- Static configuration: the schema environment (`create(schema, name)`),
the optional IPFS gateway (modelled from the spec as a function from
root/path to the successfully fetched-and-decoded block value, `none` on any
fetch or decode failure), and whether a Web3Storage invocation config is
present. -/
structure Config where
  env : String → SchemaConv
  gateway : Option (Nat → String → Option JSValue)
  w3Config : Bool

/-- Options of `putPath` (`LeafSchemaOptions & PinOptions`). -/
structure Opts where
  leafSchema : Option String := none
  parentSchema : Option String := none
  pin : Bool := false
deriving DecidableEq

/-- Errors thrown by the mutation path, plus the model-only `fuelOut`. -/
inductive PErr where
  | fuelOut : PErr
  | invalidLeafData : PErr
  | resolveError : PErr
  | editError : PErr
  | invalidParentData : PErr
  | w3NotConfigured : PErr
  | cidParseError : PErr
deriving DecidableEq

deriving instance DecidableEq for Except

/-- Outcome of one level of `putPath`: either a final answer or a tail call
on the parent path. -/
inductive Step where
  | done : PState → Except PErr Nat → Step
  | next : PState → String → JSValue → Opts → Step
deriving DecidableEq

/-- Faithful translation of the in-source helper `putInnerPath` (src lines
195-228), taking the split path segments.  The empty-segment-list case cannot
arise from `split` output and is a no-op.  `none` models a thrown
TypeError. -/
def putInner : JSValue → List String → JSValue → Option JSValue
  | node, [], _ => some node
  | node, [a], data =>
    if isNullish data then delField node a else setField node a data
  | node, [_, b], data =>
    if b = "" then some node
    else if isNullish data then delField node b else setField node b data
  | node, _ :: s1 :: s2 :: rest, data =>
    match getFieldE node s1 with
    | none => none
    | some v =>
      match putInner v (s2 :: rest) data with
      | none => none
      | some r => setField node s1 r

/-- Modelled from the spec: parse the path appended to `/ipfs/<cid>` in
`ipfs.dag.resolve`.  A non-empty path that does not begin with `/` corrupts
the CID portion of the concatenated string and fails; a single trailing
empty segment (trailing slash) is tolerated; interior empty segments are
invalid. -/
def parsePathSegs (p : String) : Option (List String) :=
  match p.data with
  | [] => some []
  | c :: rest =>
    if c = '/' then
      let raw := splitSlash rest
      let segs := if raw.getLastD "" = "" then raw.dropLast else raw
      if segs.contains "" then none else some segs
    else none

/-- Modelled from the spec: the IPLD path walk underlying `ipfs.dag.resolve`.
Traversal crosses CID links (resetting the in-block remainder) and otherwise
descends inline inside the current block; segments that do not exist are
reported as part of the remainder rather than failing, per the Path Resolver
contract. -/
def resolveWalk (store : List JSValue) :
    Nat → JSValue → List String → List String → Nat × List String
  | cid, _, acc, [] => (cid, acc)
  | cid, v, acc, s :: rest =>
    match getFieldPure v s with
    | some (JSValue.vlink c) =>
      match storeGet store c with
      | some bv => resolveWalk store c bv [] rest
      | none => (cid, acc ++ s :: rest)
    | some w => resolveWalk store cid w (acc ++ [s]) rest
    | none => (cid, acc ++ s :: rest)

/-- Modelled from the spec: `ipfs.dag.resolve("/ipfs/<root><p>")`, returning
the CID of the deepest block reached and the remaining in-block (or missing)
path. -/
def dagResolve (store : List JSValue) (root : Nat) (p : String) :
    Option (Nat × String) :=
  match parsePathSegs p with
  | none => none
  | some segs =>
    match storeGet store root with
    | none => none
    | some rv =>
      let pr := resolveWalk store root rv [] segs
      some (pr.1, joinSegs pr.2)

/-- Follow a CID link one level (IPLD pathing treats a link as the linked
node). -/
def derefOnce (store : List JSValue) : JSValue → Option JSValue
  | .vlink c => storeGet store c
  | v => some v

/-- Modelled from the spec: value-level IPLD path traversal for
`ipfs.dag.get(root, { path })` — each step dereferences a link before
descending into the named field; a missing segment fails. -/
def walkSegs (store : List JSValue) : JSValue → List String → Option JSValue
  | v, [] => some v
  | v, s :: rest =>
    match derefOnce store v with
    | none => none
    | some bv =>
      match getFieldPure bv s with
      | none => none
      | some w => walkSegs store w rest

/-- Modelled from the spec: `ipfs.dag.get(root, { path })`, with the usual
IPFS tolerance for leading/duplicate slashes and a final link dereference (a
path landing on a link yields the linked node). -/
def dagGetPath (store : List JSValue) (root : Nat) (p : String) :
    Option JSValue :=
  match storeGet store root with
  | none => none
  | some rv =>
    match walkSegs store rv ((splitSlash p.data).filter (fun s => s != "")) with
    | none => none
    | some t => derefOnce store t

/-- The `lastPathSegment` of src lines 187-188:
`pathSegments[pathSegments.length - 1]`. -/
def lastSegOf (path : String) : String := (jsSplit path).getLastD ""

/-- The `parentPath` of src line 189:
`path.replace(\x60/${lastPathSegment}\x60, "")` — note this removes the FIRST
occurrence of `"/" + lastPathSegment`. -/
def parentPathOf (path : String) : String :=
  replaceFirst path (strCat "/" (lastSegOf path))

/-- One level of `putPath` (src lines 171-328): leaf-schema gate, path split,
ancestor resolution, in-memory edit, array compaction, parent-schema
validation with indirect-link fallback, persist, optional pin/upload, and
either termination at the root or a tail call on the parent path. -/
def putPathStep (cfg : Config) (st0 : PState) (root : Nat) (path : String)
    (data : JSValue) (opts : Opts) : Step :=
  let st1 : PState := { st0 with trace := st0.trace ++ [Eff.enter path] }
  -- src lines 177-184: leaf schema transform, fatal on undefined result
  let leafRes : Except PErr JSValue :=
    match opts.leafSchema with
    | some nm =>
      let r := (cfg.env nm).toRep data
      if r = JSValue.vundefined then Except.error PErr.invalidLeafData
      else Except.ok r
    | none => Except.ok data
  match leafRes with
  | Except.error e => Step.done st1 (Except.error e)
  | Except.ok newData =>
    -- src lines 186-193: split path, resolve parent, fetch ancestor block
    let lastPathSegment := lastSegOf path
    let parentPath := parentPathOf path
    match dagResolve st1.store root parentPath with
    | none =>
      Step.done { st1 with trace := st1.trace ++ [Eff.resolveCall parentPath] }
        (Except.error PErr.resolveError)
    | some (cid, remainderPath) =>
      let st2 : PState :=
        { st1 with trace := st1.trace ++ [Eff.resolveCall parentPath, Eff.getBlock cid] }
      match storeGet st2.store cid with
      | none => Step.done st2 (Except.error PErr.resolveError)
      | some value =>
        if remainderPath = "" then
          -- src lines 232-261: replace leaf
          match putInner value (jsSplit (strCat "/" lastPathSegment)) newData with
          | none => Step.done st2 (Except.error PErr.editError)
          | some edited =>
            let filtered : JSValue :=
              match edited with
              | JSValue.varr xs => JSValue.varr (afilter xs)
              | v => v
            let phase : PState × Except PErr (JSValue × JSArr) :=
              match opts.parentSchema with
              | none => (st2, Except.ok (filtered, JSArr.anil))
              | some nm =>
                let conv := cfg.env nm
                let rep := conv.toRep filtered
                if truthy filtered ∧ rep = JSValue.vundefined then
                  let pr := storePut st2.store newData
                  let st3 : PState :=
                    { st2 with store := pr.1, trace := st2.trace ++ [Eff.putBlock newData] }
                  match putInner edited (jsSplit (strCat "/" lastPathSegment))
                      (JSValue.vlink pr.2) with
                  | none => (st3, Except.error PErr.editError)
                  | some edited2 =>
                    if conv.toRep edited2 = JSValue.vundefined then
                      (st3, Except.error PErr.invalidParentData)
                    else (st3, Except.ok (edited2, JSArr.acons newData JSArr.anil))
                else (st2, Except.ok (filtered, JSArr.anil))
            match phase with
            | (st4, Except.error e) => Step.done st4 (Except.error e)
            | (st4, Except.ok (newValue, innerBlocks)) =>
              -- src lines 297-320: persist, then optional pin/upload
              let pr2 := storePut st4.store newValue
              let st5 : PState :=
                { st4 with store := pr2.1, trace := st4.trace ++ [Eff.putBlock newValue] }
              if opts.pin ∧ cfg.w3Config = false then
                Step.done st5 (Except.error PErr.w3NotConfigured)
              else
                let st6 : PState :=
                  if opts.pin then
                    { st5 with trace := st5.trace ++ [Eff.uploadE (JSArr.acons newValue innerBlocks)] }
                  else st5
                -- src lines 322-328: terminate at root or recurse on parent
                if parentPath = "/" ∨ parentPath = "" then
                  Step.done st6 (Except.ok pr2.2)
                else Step.next st6 parentPath (JSValue.vlink pr2.2) { pin := opts.pin }
        else
          -- src lines 262-295: replace nested leaf
          let nestedPath := strCat "/" (strCat remainderPath (strCat "/" lastPathSegment))
          match putInner value (jsSplit nestedPath) newData with
          | none => Step.done st2 (Except.error PErr.editError)
          | some edited =>
            let filtered : JSValue :=
              match edited with
              | JSValue.varr xs => JSValue.varr (afilter xs)
              | v => v
            let phase : PState × Except PErr (JSValue × JSArr) :=
              match opts.parentSchema with
              | none => (st2, Except.ok (filtered, JSArr.anil))
              | some nm =>
                let conv := cfg.env nm
                let rep := conv.toRep filtered
                if truthy filtered ∧ rep = JSValue.vundefined then
                  let pr := storePut st2.store newData
                  let st3 : PState :=
                    { st2 with store := pr.1, trace := st2.trace ++ [Eff.putBlock newData] }
                  match putInner edited (jsSplit nestedPath) (JSValue.vlink pr.2) with
                  | none => (st3, Except.error PErr.editError)
                  | some edited2 =>
                    if conv.toRep edited2 = JSValue.vundefined then
                      (st3, Except.error PErr.invalidParentData)
                    else (st3, Except.ok (edited2, JSArr.acons newData JSArr.anil))
                else (st2, Except.ok (filtered, JSArr.anil))
            match phase with
            | (st4, Except.error e) => Step.done st4 (Except.error e)
            | (st4, Except.ok (newValue, innerBlocks)) =>
              -- src line 294: strip the consumed remainder from the parent path
              let parentPath2 := replaceFirst parentPath remainderPath
              let pr2 := storePut st4.store newValue
              let st5 : PState :=
                { st4 with store := pr2.1, trace := st4.trace ++ [Eff.putBlock newValue] }
              if opts.pin ∧ cfg.w3Config = false then
                Step.done st5 (Except.error PErr.w3NotConfigured)
              else
                let st6 : PState :=
                  if opts.pin then
                    { st5 with trace := st5.trace ++ [Eff.uploadE (JSArr.acons newValue innerBlocks)] }
                  else st5
                if parentPath2 = "/" ∨ parentPath2 = "" then
                  Step.done st6 (Except.ok pr2.2)
                else Step.next st6 parentPath2 (JSValue.vlink pr2.2) { pin := opts.pin }

/-- The recursive `putPath` (src lines 171-329), driven by explicit fuel (the
JavaScript recursion has no fuel; `PErr.fuelOut` is a model artifact that is
proved unreachable for sufficient fuel). -/
def putPath (cfg : Config) :
    Nat → PState → Nat → String → JSValue → Opts → PState × Except PErr Nat
  | 0, st, _, _, _, _ => (st, Except.error PErr.fuelOut)
  | fuel + 1, st, root, path, data, opts =>
    match putPathStep cfg st root path data opts with
    | Step.done st' r => (st', r)
    | Step.next st' p d o => putPath cfg fuel st' root p d o

/-- `deletePath` (src lines 335-341): `putPath` with a `null` value. -/
def deletePath (cfg : Config) (fuel : Nat) (st : PState) (root : Nat)
    (path : String) (opts : Opts) : PState × Except PErr Nat :=
  putPath cfg fuel st root path JSValue.vnull opts

/-- Representation-to-typed conversion applied at the end of `get`. -/
def applySchema (cfg : Config) (schemaOpt : Option String) (v : JSValue) : JSValue :=
  match schemaOpt with
  | some nm => (cfg.env nm).toTy v
  | none => v

/-- The retrieval method `get` (src lines 106-151): local dag resolution,
gateway raw-block fallback with cache repopulation, failure absorbed into an
`undefined` value, optional schema conversion on the way out. -/
def get (cfg : Config) (st : PState) (root : Nat) (path : String)
    (schemaOpt : Option String) : PState × JSValue :=
  match dagGetPath st.store root path with
  | some v => (st, applySchema cfg schemaOpt v)
  | none =>
    match cfg.gateway with
    | some gw =>
      match gw root path with
      | some bv =>
        let pr := storePut st.store bv
        ({ st with store := pr.1, trace := st.trace ++ [Eff.putRaw bv] },
         applySchema cfg schemaOpt bv)
      | none => (st, applySchema cfg schemaOpt JSValue.vundefined)
    | none => (st, applySchema cfg schemaOpt JSValue.vundefined)

/-- Lower-case an ASCII letter (other characters unchanged). -/
def lowerChar (c : Char) : Char :=
  if 'A' ≤ c ∧ c ≤ 'Z' then Char.ofNat (c.toNat + 32) else c

/-- JavaScript `owner.toLowerCase()` on the (ASCII) owner identity. -/
def toLowerStr (s : String) : String := String.mk (s.data.map lowerChar)

/-- Truthiness of the Ceramic document content at key `"/"`: an absent
document and an empty string are both falsy. -/
def strTruthy : Option String → Bool
  | none => false
  | some s => s != ""

/-- Modelled from the spec: numeric payload of a CID string of the shape
`"bafy<digits>"`; anything else fails to parse (`CID.parse` throws). -/
def natOfDigits (l : List Char) : Option Nat :=
  if l ≠ [] ∧ l.all Char.isDigit then
    some (l.foldl (fun n d => n * 10 + (d.toNat - 48)) 0)
  else none

/-- Modelled from the spec: `CID.parse` on the model's CID strings. -/
def parseCid (s : String) : Option Nat :=
  match s.data with
  | 'b' :: 'a' :: 'f' :: 'y' :: rest => natOfDigits rest
  | _ => none

/-- Modelled from the spec: render a model CID as a string. -/
def cidToString (c : Nat) : String := strCat "bafy" (Nat.repr c)

/-- `resolveRoot` (src lines 65-100): query the pointer document for the
owner as supplied; if its content has no truthy `"/"` entry, re-query with
the lower-cased owner; parse and return the stored root if found, otherwise
store and return a fresh empty root without updating any binding. -/
def resolveRoot (st : PState) (owner parcel : String) : PState × Except PErr Nat :=
  let st1 : PState := { st with trace := st.trace ++ [Eff.ceramicResolve owner parcel] }
  let c1 := List.lookup (owner, parcel) st.ceramic
  let qr : PState × Option String :=
    if strTruthy c1 then (st1, c1)
    else ({ st1 with trace := st1.trace ++ [Eff.ceramicResolve (toLowerStr owner) parcel] },
          List.lookup (toLowerStr owner, parcel) st.ceramic)
  if strTruthy qr.2 then
    match parseCid ((qr.2).getD "") with
    | some c => (qr.1, Except.ok c)
    | none => (qr.1, Except.error PErr.cidParseError)
  else
    let pr := storePut (qr.1).store (JSValue.vobj JSObj.onil)
    ({ qr.1 with store := pr.1,
                 trace := (qr.1).trace ++ [Eff.putBlock (JSValue.vobj JSObj.onil)] },
     Except.ok pr.2)

/-- Replace-or-insert on the Ceramic pointer map. -/
def updateKV : List ((String × String) × String) → (String × String) → String →
    List ((String × String) × String)
  | [], k, v => [(k, v)]
  | (k', w) :: rest, k, v =>
    if k' = k then (k, v) :: rest else (k', w) :: updateKV rest k v

/-- `commit` (src lines 346-360): write the root CID into the deterministic
pointer document for (owner, parcel). -/
def commit (st : PState) (root : Nat) (owner parcel : String) : PState :=
  { st with ceramic := updateKV st.ceramic (owner, parcel) (cidToString root),
            trace := st.trace ++ [Eff.ceramicUpdate owner parcel (cidToString root)] }

/-- `initRoot` (src lines 52-55): persist an empty node and commit it. -/
def initRoot (st : PState) (owner parcel : String) : PState :=
  let pr := storePut st.store (JSValue.vobj JSObj.onil)
  commit { st with store := pr.1,
                   trace := st.trace ++ [Eff.putBlock (JSValue.vobj JSObj.onil)] }
    pr.2 owner parcel

/-- `getPath` (src lines 157-164): resolve the root, then `get`. -/
def getPath (cfg : Config) (st : PState) (owner parcel path : String)
    (schemaOpt : Option String) : PState × Except PErr JSValue :=
  match resolveRoot st owner parcel with
  | (st1, Except.error e) => (st1, Except.error e)
  | (st1, Except.ok root) =>
    let r := get cfg st1 root path schemaOpt
    (r.1, Except.ok r.2)

/-- Recognize a `putPath` invocation in the trace. -/
def isEnter : Eff → Bool
  | Eff.enter _ => true
  | _ => false

/-- Recognize a `dag.put` persist in the trace. -/
def isPutBlock : Eff → Bool
  | Eff.putBlock _ => true
  | _ => false

/-- Number of `putPath` invocations recorded in a trace. -/
def countEnter (t : List Eff) : Nat := (t.filter isEnter).length

/-- Number of `dag.put` persists recorded in a trace. -/
def countPut (t : List Eff) : Nat := (t.filter isPutBlock).length

/-- Number of non-empty segments of a slash-delimited path (its depth). -/
def pathDepth (p : String) : Nat := ((jsSplit p).filter (fun s => s != "")).length

/-- Identity schema environment (every transform succeeds unchanged). -/
def idEnv : String → SchemaConv := fun _ => { toRep := fun v => v, toTy := fun v => v }

/-- Configuration with no schemas, no gateway, no upload context. -/
def cfgNoSchema : Config := { env := idEnv, gateway := none, w3Config := false }

/-- Schema environment whose representation transform always fails. -/
def rejectEnv : String → SchemaConv :=
  fun _ => { toRep := fun _ => JSValue.vundefined, toTy := fun v => v }

/-- Configuration whose schemas reject every value. -/
def cfgRejectAll : Config := { env := rejectEnv, gateway := none, w3Config := false }

/-- A schema accepting only objects whose every field is a CID link (the
spec's "rejects inline embedding of a large leaf but accepts a link"). -/
def linkOnlyConv : SchemaConv :=
  { toRep := fun v =>
      match v with
      | JSValue.vobj JSObj.onil => v
      | JSValue.vobj (JSObj.ocons _ (JSValue.vlink _) JSObj.onil) => v
      | _ => JSValue.vundefined,
    toTy := fun v => v }

/-- Schema environment binding the name `"LinkOnly"` to `linkOnlyConv`. -/
def linkOnlyEnv : String → SchemaConv :=
  fun nm => if nm = "LinkOnly" then linkOnlyConv else idEnv nm

/-- Configuration exposing the `"LinkOnly"` schema. -/
def cfgLinkOnly : Config := { env := linkOnlyEnv, gateway := none, w3Config := false }

/-- State whose store holds a single empty-object root at CID 0. -/
def emptyRootState : PState :=
  { store := [JSValue.vobj JSObj.onil], ceramic := [], trace := [] }

/-- State whose root (CID 0) is the sequence `["x", 0, "y", "z"]` — the
entry `0` is present but falsy. -/
def arrRootState : PState :=
  { store := [JSValue.varr (arrOf
      [JSValue.vstr "x", JSValue.vnum 0, JSValue.vstr "y", JSValue.vstr "z"])],
    ceramic := [], trace := [] }

/-- State whose root (CID 0) is the sequence `["a", "b", "c"]`. -/
def abcRootState : PState :=
  { store := [JSValue.varr (arrOf [JSValue.vstr "a", JSValue.vstr "b", JSValue.vstr "c"])],
    ceramic := [], trace := [] }

/-- State whose root (CID 0) is the single block `{a: {b: 1}}` — two path
levels materialized inline in one block, no links. -/
def inlineRootState : PState :=
  { store := [JSValue.vobj (objOf
      [("a", JSValue.vobj (objOf [("b", JSValue.vnum 1)]))])],
    ceramic := [], trace := [] }

/-- State whose root (CID 0) is the single block `{a: {}}` — the container
`"a"` exists inline. -/
def nestedRootState : PState :=
  { store := [JSValue.vobj (objOf [("a", JSValue.vobj JSObj.onil)])],
    ceramic := [], trace := [] }

/-- Number of recursive invocations of `putPath` (one per driver step):
mirrors the fuel-driven driver, counting one for a terminating step and one
plus the tail count for a recursive step. -/
def putPathDepth (cfg : Config) : Nat → PState → Nat → String → JSValue → Opts → Nat
  | 0, _, _, _, _, _ => 0
  | fuel + 1, st, root, path, data, opts =>
    match putPathStep cfg st root path data opts with
    | Step.done _ _ => 1
    | Step.next st' p' d' o' => putPathDepth cfg fuel st' root p' d' o' + 1

/-- State whose store holds root `{a: <link to CID 1>}` at CID 0 and the
empty object `{}` at CID 1 — a two-block tree joined by a link. -/
def linkRootState : PState :=
  { store := [JSValue.vobj (JSObj.ocons "a" (JSValue.vlink 1) JSObj.onil),
              JSValue.vobj JSObj.onil],
    ceramic := [], trace := [] }

/-! ## Store lemmas -/

theorem idxOf?_get {s : List JSValue} {v : JSValue} {i : Nat}
    (h : idxOf? s v = some i) : storeGet s i = some v := by
  induction s generalizing i with
  | nil => simp [idxOf?] at h
  | cons w rest ih =>
    by_cases hw : w = v
    · simp [idxOf?, hw] at h
      subst h
      simp [storeGet, hw]
    · simp [idxOf?, hw] at h
      obtain ⟨j, hj, rfl⟩ := h
      simpa [storeGet] using ih hj

theorem idxOf?_none_not_mem {s : List JSValue} {v : JSValue}
    (h : idxOf? s v = none) : v ∉ s := by
  induction s with
  | nil => simp
  | cons w rest ih =>
    by_cases hw : w = v
    · simp [idxOf?, hw] at h
    · simp [idxOf?, hw] at h
      simp [ih h, Ne.symm hw]

theorem storeGet_append (s t : List JSValue) {i : Nat} {x : JSValue}
    (h : storeGet s i = some x) : storeGet (s ++ t) i = some x := by
  have hi : i < s.length := by
    by_contra hb
    rw [storeGet, List.getElem?_eq_none (Nat.le_of_not_lt hb)] at h
    exact Option.noConfusion h
  simpa [storeGet, List.getElem?_append_left hi] using h

theorem storePut_prefix (s : List JSValue) (v : JSValue) :
    s <+: (storePut s v).1 := by
  unfold storePut
  cases h : idxOf? s v with
  | some i => exact List.prefix_refl s
  | none => exact ⟨[v], rfl⟩

theorem storeGet_mono {s s' : List JSValue} (h : s <+: s') {i : Nat} {x : JSValue}
    (hg : storeGet s i = some x) : storeGet s' i = some x := by
  obtain ⟨t, rfl⟩ := h
  exact storeGet_append s t hg

theorem storePut_get (s : List JSValue) (v : JSValue) :
    storeGet (storePut s v).1 (storePut s v).2 = some v := by
  unfold storePut
  cases h : idxOf? s v with
  | some i => simpa using idxOf?_get h
  | none => simp [storeGet, List.getElem?_concat_length]

theorem storePut_mem (s : List JSValue) (v : JSValue) : v ∈ (storePut s v).1 := by
  rw [storePut]
  cases h : idxOf? s v with
  | some i =>
    have hg := idxOf?_get h
    rw [storeGet] at hg
    obtain ⟨hi, he⟩ := List.getElem?_eq_some.mp hg
    exact he ▸ List.getElem_mem hi
  | none => simp

theorem storePut_fresh_length {s : List JSValue} {v : JSValue} (h : v ∉ s) :
    (storePut s v).1.length = s.length + 1 := by
  rw [storePut]
  cases hx : idxOf? s v with
  | some i =>
    have hg := idxOf?_get hx
    rw [storeGet] at hg
    obtain ⟨hi, he⟩ := List.getElem?_eq_some.mp hg
    exact absurd (he ▸ List.getElem_mem hi) h
  | none => simp

/-! ## String-manipulation lemmas -/

theorem splitSlash_ne_nil (l : List Char) : splitSlash l ≠ [] := by
  cases l with
  | nil => simp [splitSlash]
  | cons c rest =>
    rw [splitSlash]
    by_cases hc : c = '/'
    · simp [hc]
    · cases h : splitSlash rest with
      | nil => simp [hc]
      | cons s ss => simp [hc]

theorem splitSlash_cons_slash (l : List Char) :
    splitSlash ('/' :: l) = "" :: splitSlash l := by
  rw [splitSlash]
  simp

theorem splitSlash_no_slash {l : List Char} (h : '/' ∉ l) :
    splitSlash l = [String.mk l] := by
  induction l with
  | nil => simp [splitSlash]
  | cons c rest ih =>
    have hc : c ≠ '/' := fun hcc => h (hcc ▸ List.mem_cons_self c rest)
    have hr : '/' ∉ rest := fun hm => h (List.mem_cons_of_mem c hm)
    rw [splitSlash, ih hr]
    simp [hc]

theorem splitSlash_append_slash {l1 : List Char} (l2 : List Char) (h : '/' ∉ l1) :
    splitSlash (l1 ++ '/' :: l2) = String.mk l1 :: splitSlash l2 := by
  induction l1 with
  | nil => simpa using splitSlash_cons_slash l2
  | cons c rest ih =>
    have hc : c ≠ '/' := fun hcc => h (hcc ▸ List.mem_cons_self c rest)
    have hr : '/' ∉ rest := fun hm => h (List.mem_cons_of_mem c hm)
    rw [List.cons_append, splitSlash, ih hr]
    simp [hc]

theorem strCat_data (a b : String) : (strCat a b).data = a.data ++ b.data := rfl

theorem mk_data (s : String) : String.mk s.data = s := by
  cases s
  rfl

theorem replFirst_self (l : List Char) : replFirst l l = [] := by
  cases l with
  | nil => rfl
  | cons c rest =>
    have hb : (c :: rest).isPrefixOf (c :: rest) = true := by
      simp [List.isPrefixOf_iff_prefix]
    simp [replFirst, hb]

theorem replFirst_cons_not_prefix {pat l : List Char} {c : Char}
    (h : ¬ pat <+: (c :: l)) : replFirst (c :: l) pat = c :: replFirst l pat := by
  have hb : pat.isPrefixOf (c :: l) = false := by
    simp only [Bool.eq_false_iff, ne_eq, List.isPrefixOf_iff_prefix]
    exact h
  simp [replFirst, hb]

theorem prefix_slashfree {p l1 : List Char} (l2 : List Char)
    (hp : '/' ∉ p) (h1 : '/' ∉ l1) :
    (p <+: (l1 ++ '/' :: l2)) ↔ p <+: l1 := by
  induction p generalizing l1 with
  | nil => simp
  | cons c p' ih =>
    have hc : c ≠ '/' := fun hcc => hp (hcc ▸ List.mem_cons_self c p')
    have hp' : '/' ∉ p' := fun hm => hp (List.mem_cons_of_mem c hm)
    cases l1 with
    | nil =>
      simp only [List.nil_append, List.cons_prefix_cons]
      constructor
      · intro h
        exact absurd h.1 hc
      · intro h
        exact absurd h (by simp)
    | cons d l1' =>
      have h1' : '/' ∉ l1' := fun hm => h1 (List.mem_cons_of_mem d hm)
      rw [List.cons_append, List.cons_prefix_cons, List.cons_prefix_cons, ih hp' h1']

theorem replFirst_skip_slashfree {l1 : List Char} (l2 q : List Char)
    (h1 : '/' ∉ l1) : replFirst (l1 ++ l2) ('/' :: q) = l1 ++ replFirst l2 ('/' :: q) := by
  induction l1 with
  | nil => simp
  | cons c rest ih =>
    have hc : c ≠ '/' := fun hcc => h1 (hcc ▸ List.mem_cons_self c rest)
    have hr : '/' ∉ rest := fun hm => h1 (List.mem_cons_of_mem c hm)
    have hnp : ¬ ('/' :: q) <+: (c :: (rest ++ l2)) := by
      rw [List.cons_prefix_cons]
      rintro ⟨he, -⟩
      exact hc he.symm
    rw [List.cons_append, replFirst_cons_not_prefix hnp, ih hr]
    simp

/-! ## Object and array lemmas -/

theorem oset_oset (fs : JSObj) (k : String) (a b : JSValue) :
    oset (oset fs k a) k b = oset fs k b := by
  match fs with
  | .onil => simp [oset]
  | .ocons k' w rest =>
    by_cases h : k' = k
    · simp [oset, h]
    · simp only [oset, if_neg h]
      rw [oset_oset rest k a b]

theorem olookup_oset (fs : JSObj) (k : String) (v : JSValue) :
    olookup (oset fs k v) k = some v := by
  match fs with
  | .onil => simp [oset, olookup]
  | .ocons k' w rest =>
    by_cases h : k' = k
    · simp [oset, h, olookup]
    · simp only [oset, if_neg h, olookup]
      exact olookup_oset rest k v

theorem olookup_oset_ne (fs : JSObj) {k k' : String} (v : JSValue) (h : k' ≠ k) :
    olookup (oset fs k v) k' = olookup fs k' := by
  match fs with
  | .onil => simp [oset, olookup, Ne.symm h]
  | .ocons k0 w rest =>
    by_cases h0 : k0 = k
    · subst h0
      simp [oset, olookup, Ne.symm h]
    · simp only [oset, if_neg h0, olookup]
      rw [olookup_oset_ne rest v h]

/-! ## Path-shape lemmas -/

theorem slash_data : ("/" : String).data = ['/'] := rfl

theorem jsSplit_slash_seg {k : String} (hk : '/' ∉ k.data) :
    jsSplit (strCat "/" k) = ["", k] := by
  show splitSlash (strCat "/" k).data = ["", k]
  rw [strCat_data, slash_data, List.singleton_append, splitSlash_cons_slash,
      splitSlash_no_slash hk, mk_data]

theorem lastSegOf_single {k : String} (hk : '/' ∉ k.data) :
    lastSegOf (strCat "/" k) = k := by
  rw [lastSegOf, jsSplit_slash_seg hk]
  rfl

theorem parentPathOf_single {k : String} (hk : '/' ∉ k.data) :
    parentPathOf (strCat "/" k) = "" := by
  rw [parentPathOf, lastSegOf_single hk, replaceFirst, replFirst_self]

theorem dagResolve_empty_path {store : List JSValue} {root : Nat} {rv : JSValue}
    (h : storeGet store root = some rv) :
    dagResolve store root "" = some (root, "") := by
  simp [dagResolve, parsePathSegs, h, resolveWalk, joinSegs, joinSegsChars]

theorem putInner_set_two {node : JSValue} {b : String} {d : JSValue}
    (hb : b ≠ "") (hd : isNullish d = false) :
    putInner node ["", b] d = setField node b d := by
  simp [putInner, hb, hd]

theorem isNullish_false {d : JSValue} (h1 : d ≠ JSValue.vnull)
    (h2 : d ≠ JSValue.vundefined) : isNullish d = false := by
  cases d <;> simp_all [isNullish]

theorem derefOnce_nonlink {store : List JSValue} {d : JSValue}
    (h : ∀ c, d ≠ JSValue.vlink c) : derefOnce store d = some d := by
  cases d <;> first | rfl | exact absurd rfl (h _)

theorem data_ne_nil {a : String} (h : a ≠ "") : a.data ≠ [] := by
  intro hl
  apply h
  cases a
  cases hl
  rfl

theorem pathOf_single (a : String) : pathOf [a] = strCat "/" a := rfl

theorem pathOf_two_data (a b : String) :
    (pathOf [a, b]).data = '/' :: (a.data ++ '/' :: b.data) := rfl

theorem jsSplit_two {a b : String} (ha : '/' ∉ a.data) (hb : '/' ∉ b.data) :
    jsSplit (pathOf [a, b]) = ["", a, b] := by
  show splitSlash (pathOf [a, b]).data = ["", a, b]
  rw [pathOf_two_data, splitSlash_cons_slash, splitSlash_append_slash b.data ha,
      splitSlash_no_slash hb, mk_data, mk_data]

theorem lastSegOf_two {a b : String} (ha : '/' ∉ a.data) (hb : '/' ∉ b.data) :
    lastSegOf (pathOf [a, b]) = b := by
  rw [lastSegOf, jsSplit_two ha hb]
  rfl

theorem parentPathOf_two {a b : String} (ha : '/' ∉ a.data) (hb : '/' ∉ b.data)
    (hnp : ¬ b.data <+: a.data) :
    parentPathOf (pathOf [a, b]) = pathOf [a] := by
  rw [parentPathOf, lastSegOf_two ha hb]
  show String.mk (replFirst ('/' :: (a.data ++ '/' :: b.data)) ('/' :: b.data)) = pathOf [a]
  have h0 : ¬ ('/' :: b.data) <+: ('/' :: (a.data ++ '/' :: b.data)) := by
    rw [List.cons_prefix_cons]
    rintro ⟨-, hpre⟩
    exact hnp ((prefix_slashfree b.data hb ha).mp hpre)
  rw [ replFirst_cons_not_prefix h0, replFirst_skip_slashfree ('/' :: b.data) b.data ha,
      replFirst_self]
  simp [pathOf, joinSegsChars]

theorem parsePathSegs_single {a : String} (ha : '/' ∉ a.data) (hne : a ≠ "") :
    parsePathSegs (pathOf [a]) = some [a] := by
  show parsePathSegs (String.mk ('/' :: a.data)) = some [a]
  unfold parsePathSegs
  simp only [mk_data]
  rw [splitSlash_no_slash ha, mk_data]
  simp [hne, eq_comm]

theorem dagResolve_single_inline {store : List JSValue} {root : Nat} {fs : JSObj}
    {a : String} {w : JSValue}
    (hr : storeGet store root = some (JSValue.vobj fs))
    (ha : '/' ∉ a.data) (hane : a ≠ "")
    (hlook : olookup fs a = some w)
    (hnl : ∀ c, w ≠ JSValue.vlink c) :
    dagResolve store root (pathOf [a]) = some (root, a) := by
  rw [dagResolve, parsePathSegs_single ha hane, hr]
  have hwalk : resolveWalk store root (JSValue.vobj fs) [] [a] = (root, [a]) := by
    rw [resolveWalk]
    simp only [getFieldPure, hlook]
    cases w with
    | vlink c => exact absurd rfl (hnl c)
    | vnull => simp [resolveWalk]
    | vundefined => simp [resolveWalk]
    | vbool b => simp [resolveWalk]
    | vnum n => simp [resolveWalk]
    | vstr s => simp [resolveWalk]
    | varr xs => simp [resolveWalk]
    | vobj g => simp [resolveWalk]
  simp [hwalk, joinSegs, joinSegsChars, mk_data]

theorem replaceFirst_strip_seg {a : String} (ha : '/' ∉ a.data) (hane : a ≠ "") :
    replaceFirst (pathOf [a]) a = "/" := by
  rw [replaceFirst]
  show String.mk (replFirst ('/' :: a.data) a.data) = "/"
  have h0 : ¬ a.data <+: ('/' :: a.data) := by
    cases hd : a.data with
    | nil => exact absurd hd (data_ne_nil hane)
    | cons c rest =>
      rw [List.cons_prefix_cons]
      rintro ⟨he, -⟩
      exact ha (by rw [hd]; exact he ▸ List.mem_cons_self c rest)
  rw [ replFirst_cons_not_prefix h0, replFirst_self]

theorem dagResolve_single_link {store : List JSValue} {root : Nat} {fs : JSObj}
    {a : String} {c : Nat} {gv : JSValue}
    (hr : storeGet store root = some (JSValue.vobj fs))
    (ha : '/' ∉ a.data) (hane : a ≠ "")
    (hlook : olookup fs a = some (JSValue.vlink c))
    (hc : storeGet store c = some gv) :
    dagResolve store root (pathOf [a]) = some (c, "") := by
  rw [dagResolve, parsePathSegs_single ha hane, hr]
  have hwalk : resolveWalk store root (JSValue.vobj fs) [] [a] = (c, []) := by
    rw [resolveWalk]
    simp only [getFieldPure, hlook, hc]
    rfl
  simp [hwalk, joinSegs, joinSegsChars]

theorem pathOf_one_ne_slash {a : String} (hane : a ≠ "") :
    pathOf [a] ≠ "/" ∧ pathOf [a] ≠ "" := by
  constructor <;> intro h <;> apply data_ne_nil hane
  · have := congrArg String.data h
    simp only [pathOf, joinSegsChars, List.append_nil, slash_data] at this
    exact List.cons_eq_cons.mp this |>.2
  · have := congrArg String.data h
    simp only [pathOf, joinSegsChars, List.append_nil] at this
    exact absurd this (by simp)

/-! ## Termination, depth and effect-balance lemmas -/

theorem splitSlash_length (l : List Char) :
    (splitSlash l).length = l.count '/' + 1 := by
  induction l with
  | nil => simp [splitSlash]
  | cons c rest ih =>
    by_cases hc : c = '/'
    · subst hc
      rw [splitSlash_cons_slash]
      simp [ih, List.count_cons]
    · rw [splitSlash]
      simp only [if_neg hc]
      cases h : splitSlash rest with
      | nil => exact absurd h (splitSlash_ne_nil rest)
      | cons s ss =>
        rw [h] at ih
        simp only [List.length_cons] at ih ⊢
        rw [List.count_cons]
        simp [hc, ih]

theorem replFirst_removes {pat : List Char} :
    ∀ l : List Char, (∃ l1 l2 : List Char, l = l1 ++ pat ++ l2) →
      ∃ l1 l2 : List Char, l = l1 ++ pat ++ l2 ∧ replFirst l pat = l1 ++ l2 := by
  intro l
  induction l with
  | nil =>
    rintro ⟨l1, l2, he⟩
    have h1 : l1 = [] := by
      cases l1 with
      | nil => rfl
      | cons x xs => simp at he
    have hp : pat = [] := by
      subst h1
      cases pat with
      | nil => rfl
      | cons x xs => simp at he
    exact ⟨[], [], by simp [hp], by simp [replFirst, hp]⟩
  | cons c rest ih =>
    rintro ⟨l1, l2, he⟩
    by_cases hpre : pat <+: (c :: rest)
    · obtain ⟨t, ht⟩ := hpre
      refine ⟨[], t, by simp [ht.symm], ?_⟩
      cases hp : pat with
      | nil => simp [replFirst, ← ht, hp]
      | cons p ps =>
        rw [hp] at ht
        have hb : (p :: ps).isPrefixOf (c :: rest) = true := by
          simp only [List.isPrefixOf_iff_prefix]
          exact ⟨t, ht⟩
        rw [show c :: rest = (p :: ps) ++ t from ht.symm] at hb ⊢
        simp [replFirst, hb, List.isPrefixOf_iff_prefix]
    · have hl1 : ∃ m, l1 = c :: m := by
        cases l1 with
        | nil =>
          exfalso
          apply hpre
          exact ⟨l2, by simpa using he.symm⟩
        | cons x xs =>
          simp only [List.cons_append, List.cons.injEq] at he
          exact ⟨xs, by rw [he.1]⟩
      obtain ⟨m, rfl⟩ := hl1
      simp only [List.cons_append, List.cons.injEq] at he
      obtain ⟨m1, m2, hm, hr⟩ := ih ⟨m, l2, he.2⟩
      exact ⟨c :: m1, m2, by simp [hm], by
        rw [ replFirst_cons_not_prefix hpre, hr]
        simp⟩

theorem replFirst_decomp (l pat : List Char) :
    replFirst l pat = l ∨
    ∃ l1 l2 : List Char, l = l1 ++ pat ++ l2 ∧ replFirst l pat = l1 ++ l2 := by
  induction l with
  | nil => left; rfl
  | cons c rest ih =>
    by_cases hpre : pat <+: (c :: rest)
    · right
      exact replFirst_removes (c :: rest) (by
        obtain ⟨t, ht⟩ := hpre
        exact ⟨[], t, by simp [ht.symm]⟩)
    · rw [ replFirst_cons_not_prefix hpre]
      rcases ih with h | ⟨l1, l2, he, hr⟩
      · left; rw [h]
      · right
        exact ⟨c :: l1, l2, by simp [he], by rw [hr]; simp⟩



theorem getLastD_ne_nil {L : List String} (h : L ≠ []) (d1 d2 : String) :
    L.getLastD d1 = L.getLastD d2 := by
  cases L with
  | nil => exact absurd rfl h
  | cons x xs =>
    rw [List.getLastD_eq_getLast?, List.getLastD_eq_getLast?]
    cases hml : (x :: xs).getLast? with
    | some y => rfl
    | none => exact absurd (List.getLast?_eq_none_iff.mp hml) (by simp)

theorem count_pos_of_mem {l : List Char} (h : '/' ∈ l) : 0 < l.count '/' :=
  List.count_pos_iff.mpr h

theorem splitSlash_last_decomp :
    ∀ l : List Char, '/' ∈ l →
      ∃ l1 : List Char, l = l1 ++ '/' :: ((splitSlash l).getLastD "").data ∧
        '/' ∉ ((splitSlash l).getLastD "").data := by
  intro l
  induction l with
  | nil => intro h; simp at h
  | cons c rest ih =>
    intro hmem
    by_cases hr : '/' ∈ rest
    · obtain ⟨l1, he, hfree⟩ := ih hr
      have hlast_eq : ((splitSlash (c :: rest)).getLastD "") =
          ((splitSlash rest).getLastD "") := by
        by_cases hc : c = '/'
        · subst hc
          rw [splitSlash_cons_slash, List.getLastD_cons]
        · rw [splitSlash]
          simp only [if_neg hc]
          cases h : splitSlash rest with
          | nil => exact absurd h (splitSlash_ne_nil rest)
          | cons s ss =>
            have hss : ss ≠ [] := by
              intro hnil
              have hl := splitSlash_length rest
              rw [h, hnil] at hl
              simp at hl
              have := count_pos_of_mem hr
              omega
            rw [List.getLastD_cons, List.getLastD_cons]
            exact getLastD_ne_nil hss _ _
      rw [hlast_eq]
      exact ⟨c :: l1, by rw [List.cons_append, ← he], hfree⟩
    · have hc : c = '/' := by
        cases List.mem_cons.mp hmem with
        | inl h => exact h.symm
        | inr h => exact absurd h hr
      subst hc
      have hsplit : splitSlash ('/' :: rest) = "" :: [String.mk rest] := by
        rw [splitSlash_cons_slash, splitSlash_no_slash hr]
      refine ⟨[], ?_, ?_⟩
      · rw [hsplit]
        simp [List.getLastD_cons, mk_data]
      · rw [hsplit]
        simpa [List.getLastD_cons, mk_data] using hr



theorem parsePathSegs_some_shape {p : String} {segs : List String}
    (h : parsePathSegs p = some segs) :
    p = "" ∨ ∃ rest, p.data = '/' :: rest := by
  obtain ⟨d⟩ := p
  unfold parsePathSegs at h
  cases d with
  | nil => left; rfl
  | cons c rest =>
    simp only at h
    by_cases hc : c = '/'
    · right
      exact ⟨rest, by rw [hc]⟩
    · rw [if_neg hc] at h
      cases h

theorem dagResolve_parse_shape {store : List JSValue} {root : Nat} {p : String}
    {x : Nat × String} (h : dagResolve store root p = some x) :
    p = "" ∨ ∃ rest, p.data = '/' :: rest := by
  unfold dagResolve at h
  cases hp : parsePathSegs p with
  | none => rw [hp] at h; cases h
  | some segs => exact parsePathSegs_some_shape hp

theorem pat_last_free (path : String) (hmem : '/' ∈ path.data) :
    '/' ∉ (lastSegOf path).data :=
  (splitSlash_last_decomp path.data hmem).choose_spec.2

theorem lastSegOf_data_eq (path : String) :
    lastSegOf path = (splitSlash path.data).getLastD "" := rfl

theorem count_parentPath_of_slash {path : String} (hmem : '/' ∈ path.data) :
    (parentPathOf path).data.count '/' + 1 = path.data.count '/' := by
  obtain ⟨l1, he, hfree⟩ := splitSlash_last_decomp path.data hmem
  have hocc : ∃ a b : List Char,
      path.data = a ++ ('/' :: (lastSegOf path).data) ++ b := by
    refine ⟨l1, [], ?_⟩
    rw [List.append_nil, lastSegOf_data_eq]
    exact he
  obtain ⟨a, b, hab, hrepl⟩ := replFirst_removes path.data hocc
  have hdata : (parentPathOf path).data = a ++ b := by
    show (replaceFirst path (strCat "/" (lastSegOf path))).data = a ++ b
    rw [replaceFirst]
    rw [mk_data]
    rw [show (strCat "/" (lastSegOf path)).data = '/' :: (lastSegOf path).data from rfl]
    exact hrepl
  have hfree2 : ((lastSegOf path).data).count '/' = 0 :=
    List.count_eq_zero.mpr (pat_last_free path hmem)
  rw [hdata, hab]
  simp only [List.count_append, List.count_cons_self, lastSegOf_data_eq, hfree2]
  have hf3 : (((splitSlash path.data).getLastD "").data).count '/' = 0 :=
    List.count_eq_zero.mpr hfree
  omega

theorem replaceFirst_count_le (s pat : String) :
    (replaceFirst s pat).data.count '/' ≤ s.data.count '/' := by
  rcases replFirst_decomp s.data pat.data with h | ⟨l1, l2, he, hr⟩
  · show (String.mk (replFirst s.data pat.data)).data.count '/' ≤ _
    rw [mk_data, h]
  · show (String.mk (replFirst s.data pat.data)).data.count '/' ≤ _
    rw [mk_data, hr, he]
    simp [List.count_append]

theorem data_empty {p : String} (h : p.data = []) : p = "" := by
  cases p
  cases h
  rfl

theorem shrink_A {path : String}
    (hshape : parentPathOf path = "" ∨ ∃ rest, (parentPathOf path).data = '/' :: rest)
    (hne : parentPathOf path ≠ "") :
    (jsSplit (parentPathOf path)).length + 1 ≤ (jsSplit path).length := by
  have hlead : ∃ rest, (parentPathOf path).data = '/' :: rest := by
    rcases hshape with h | h
    · exact absurd h hne
    · exact h
  obtain ⟨rest, hrest⟩ := hlead
  by_cases hmem : '/' ∈ path.data
  · have := count_parentPath_of_slash hmem
    show (splitSlash (parentPathOf path).data).length + 1 ≤ (splitSlash path.data).length
    rw [splitSlash_length, splitSlash_length]
    omega
  · exfalso
    rcases replFirst_decomp path.data (strCat "/" (lastSegOf path)).data with h | ⟨l1, l2, he, hr⟩
    · have : (parentPathOf path).data = path.data := by
        show (String.mk (replFirst path.data _)).data = path.data
        rw [mk_data, h]
      rw [this] at hrest
      exact hmem (by rw [hrest]; exact List.mem_cons_self _ _)
    · apply hmem
      rw [he]
      have : '/' ∈ (strCat "/" (lastSegOf path)).data := by
        rw [show (strCat "/" (lastSegOf path)).data = '/' :: (lastSegOf path).data from rfl]
        exact List.mem_cons_self _ _
      simp [this]

theorem shrink_B {path rem : String}
    (hshape : parentPathOf path = "" ∨ ∃ rest, (parentPathOf path).data = '/' :: rest)
    (hne2 : replaceFirst (parentPathOf path) rem ≠ "") :
    (jsSplit (replaceFirst (parentPathOf path) rem)).length + 1 ≤ (jsSplit path).length := by
  have hne : parentPathOf path ≠ "" := by
    intro h0
    apply hne2
    rw [h0]
    rfl
  have h2 := replaceFirst_count_le (parentPathOf path) rem
  have h1 : (splitSlash (parentPathOf path).data).length + 1 ≤
      (splitSlash path.data).length := shrink_A hshape hne
  rw [splitSlash_length, splitSlash_length] at h1
  show (splitSlash (replaceFirst (parentPathOf path) rem).data).length + 1 ≤
    (splitSlash path.data).length
  rw [splitSlash_length, splitSlash_length]
  omega



theorem countEnter_append (t1 t2 : List Eff) :
    countEnter (t1 ++ t2) = countEnter t1 + countEnter t2 := by
  simp [countEnter, List.filter_append]

theorem countPut_append (t1 t2 : List Eff) :
    countPut (t1 ++ t2) = countPut t1 + countPut t2 := by
  simp [countPut, List.filter_append]

theorem putPathStep_next_pin_shrink {cfg : Config} {st : PState} {root : Nat}
    {path : String} {data : JSValue} {opts : Opts} {st' : PState} {p' : String}
    {d' : JSValue} {o' : Opts}
    (h : putPathStep cfg st root path data opts = Step.next st' p' d' o') :
    o' = { leafSchema := none, parentSchema := none, pin := opts.pin } ∧
    (jsSplit p').length + 1 ≤ (jsSplit path).length := by
  simp only [putPathStep] at h
  repeat' split at h
  all_goals try exact Step.noConfusion h
  all_goals (
    injection h with h1 h2 h3 h4
    subst h2
    subst h4
    refine ⟨rfl, ?_⟩)
  all_goals first
    | (refine shrink_A (dagResolve_parse_shape (by assumption)) ?_
       intro h0
       exact absurd (Or.inr h0) (by assumption))
    | (refine shrink_B (dagResolve_parse_shape (by assumption)) ?_
       intro h0
       exact absurd (Or.inr h0) (by assumption))

theorem putPathStep_balance_done {cfg : Config} {st : PState} {root : Nat}
    {path : String} {data : JSValue} {opts : Opts} {st' : PState} {c : Nat}
    (hps : opts.parentSchema = none)
    (h : putPathStep cfg st root path data opts = Step.done st' (Except.ok c)) :
    countEnter st'.trace = countEnter st.trace + 1 ∧
    countPut st'.trace = countPut st.trace + 1 := by
  simp only [putPathStep, hps] at h
  repeat' split at h
  all_goals first
    | exact Step.noConfusion h
    | (injection h with h1 h2
       exact Except.noConfusion h2)
    | (injection h with h1 h2
       rw [← h1]
       constructor <;>
         simp [countEnter_append, countPut_append, countEnter, countPut,
           isEnter, isPutBlock])

theorem putPathStep_balance_next {cfg : Config} {st : PState} {root : Nat}
    {path : String} {data : JSValue} {opts : Opts} {st' : PState} {p' : String}
    {d' : JSValue} {o' : Opts}
    (hps : opts.parentSchema = none)
    (h : putPathStep cfg st root path data opts = Step.next st' p' d' o') :
    countEnter st'.trace = countEnter st.trace + 1 ∧
    countPut st'.trace = countPut st.trace + 1 := by
  simp only [putPathStep, hps] at h
  repeat' split at h
  all_goals first
    | exact Step.noConfusion h
    | (injection h with h1 h2 h3 h4
       rw [← h1]
       constructor <;>
         simp [countEnter_append, countPut_append, countEnter, countPut,
           isEnter, isPutBlock])



theorem jsSplit_len_pos (path : String) : 1 ≤ (jsSplit path).length := by
  cases hsp : jsSplit path with
  | nil => exact absurd hsp (splitSlash_ne_nil path.data)
  | cons a l => simp

theorem putPath_fuel_irrel :
    ∀ n f1 f2 cfg st root path data opts,
      (jsSplit path).length ≤ n →
      (jsSplit path).length ≤ f1 → (jsSplit path).length ≤ f2 →
      putPath cfg f1 st root path data opts = putPath cfg f2 st root path data opts := by
  intro n
  induction n with
  | zero =>
    intro f1 f2 cfg st root path data opts hn _ _
    have := jsSplit_len_pos path
    omega
  | succ n ih =>
    intro f1 f2 cfg st root path data opts hn h1 h2
    have hpos := jsSplit_len_pos path
    obtain ⟨f1', rfl⟩ : ∃ m, f1 = m + 1 := ⟨f1 - 1, by omega⟩
    obtain ⟨f2', rfl⟩ : ∃ m, f2 = m + 1 := ⟨f2 - 1, by omega⟩
    cases hstep : putPathStep cfg st root path data opts with
    | done st' r => simp only [putPath, hstep]
    | next st' p' d' o' =>
      simp only [putPath, hstep]
      have hs := (putPathStep_next_pin_shrink hstep).2
      exact ih f1' f2' cfg st' root p' d' o' (by omega) (by omega) (by omega)

theorem putPathDepth_le :
    ∀ fuel cfg st root path data opts,
      (jsSplit path).length ≤ fuel →
      putPathDepth cfg fuel st root path data opts ≤ (jsSplit path).length := by
  intro fuel
  induction fuel with
  | zero =>
    intro cfg st root path data opts h
    simp [putPathDepth]
  | succ fuel ih =>
    intro cfg st root path data opts h
    have hpos := jsSplit_len_pos path
    cases hstep : putPathStep cfg st root path data opts with
    | done st' r =>
      simp only [putPathDepth, hstep]
      omega
    | next st' p' d' o' =>
      simp only [putPathDepth, hstep]
      have hs := (putPathStep_next_pin_shrink hstep).2
      have hrec := ih cfg st' root p' d' o' (by omega)
      omega

theorem putPath_balance :
    ∀ fuel cfg st root path data opts st2 c,
      opts.parentSchema = none →
      putPath cfg fuel st root path data opts = (st2, Except.ok c) →
      countEnter st2.trace + countPut st.trace =
        countPut st2.trace + countEnter st.trace := by
  intro fuel
  induction fuel with
  | zero =>
    intro cfg st root path data opts st2 c hps h
    rw [putPath] at h
    injection h with h1 h2
    exact Except.noConfusion h2
  | succ fuel ih =>
    intro cfg st root path data opts st2 c hps h
    rw [putPath] at h
    cases hstep : putPathStep cfg st root path data opts with
    | done st' r =>
      rw [hstep] at h
      injection h with h1 h2
      subst h1
      subst h2
      obtain ⟨he, hp⟩ := putPathStep_balance_done hps hstep
      omega
    | next st' p' d' o' =>
      rw [hstep] at h
      obtain ⟨ho, -⟩ := putPathStep_next_pin_shrink hstep
      obtain ⟨he, hp⟩ := putPathStep_balance_next hps hstep
      have hrec := ih cfg st' root p' d' o' st2 c (by rw [ho]) h
      omega


/-! ## Claim theorems -/

/-- C1 (code bug): on deletion with `putPath(root, path, null)`, the
compaction step is `filter((v) => v)`, which removes every falsy entry —
not only the null/undefined holes introduced by the deletion.  Deleting
index 3 of the root sequence `["x", 0, "y", "z"]` yields `["x", "y"]`: the
present-but-falsy entry `0` is dropped, contradicting the claim (and the
code's own comment "Filter undefined from arrays").  The claim's own truthy
example does hold: deleting index 1 of `["a", "b", "c"]` yields
`["a", "c"]` with order preserved. -/
theorem putPath_compaction_drops_falsy :
    (putPath cfgNoSchema 2 arrRootState 0 "/3" JSValue.vnull {}).2 = Except.ok 1 ∧
    storeGet (putPath cfgNoSchema 2 arrRootState 0 "/3" JSValue.vnull {}).1.store 1 =
      some (JSValue.varr (arrOf [JSValue.vstr "x", JSValue.vstr "y"])) ∧
    storeGet (putPath cfgNoSchema 2 arrRootState 0 "/3" JSValue.vnull {}).1.store 1 ≠
      some (JSValue.varr (arrOf [JSValue.vstr "x", JSValue.vnum 0, JSValue.vstr "y"])) ∧
    (putPath cfgNoSchema 2 abcRootState 0 "/1" JSValue.vnull {}).2 = Except.ok 1 ∧
    storeGet (putPath cfgNoSchema 2 abcRootState 0 "/1" JSValue.vnull {}).1.store 1 =
      some (JSValue.varr (arrOf [JSValue.vstr "a", JSValue.vstr "c"])) :=
  ⟨rfl, rfl, by decide, rfl, rfl⟩

/-- C3 (code bug): `putPath` computes `parentPath` as
`path.replace("/" + lastSegment, "")`, which removes the FIRST occurrence of
the last segment, not the final one.  For the path `"/a/b/a"` the last
segment is `"a"`, but the computed parent path is `"/b/a"` instead of the
path to the containing node `"/a/b"`. -/
theorem parentPathOf_repeated_segment :
    lastSegOf "/a/b/a" = "a" ∧
    parentPathOf "/a/b/a" = "/b/a" ∧
    ("/b/a" : String) ≠ "/a/b" :=
  ⟨rfl, rfl, by decide⟩

/-- C2 (counterexample): recursion depth does not equal path depth.  With a
root whose single block inlines `{a: {b: 1}}`, `putPath(root, "/a/b", 2)`
succeeds after exactly one invocation and one persisted node, while the path
has depth 2 — both path levels resolve inside one block, so the recursion
runs once per block, not once per path segment. -/
theorem putPath_depth_counterexample :
    (putPath cfgNoSchema 3 inlineRootState 0 "/a/b" (JSValue.vnum 2) {}).2 = Except.ok 1 ∧
    countEnter (putPath cfgNoSchema 3 inlineRootState 0 "/a/b" (JSValue.vnum 2) {}).1.trace = 1 ∧
    countPut (putPath cfgNoSchema 3 inlineRootState 0 "/a/b" (JSValue.vnum 2) {}).1.trace = 1 ∧
    pathDepth "/a/b" = 2 ∧
    (1 : Nat) ≠ 2 :=
  ⟨rfl, rfl, rfl, rfl, by decide⟩

/-- C2 (amended): `putPath` terminates on every slash-delimited path — once
the fuel reaches the number of slash-separated components of the path the
result no longer depends on the fuel, because each recursive step strictly
shortens the parent path by at least one component.  Its recursion depth is
bounded by that component count (one invocation per *block* level crossed,
which can be fewer than the path depth when several levels are inlined in
one block), and, when no `parentSchema` is configured, every successful run
persists exactly one new node per invocation: the number of block writes
added to the trace equals the number of invocations recorded. -/
theorem putPath_terminates_bounded_balanced
    (cfg : Config) (st : PState) (root : Nat) (path : String) (data : JSValue)
    (opts : Opts) (f1 f2 : Nat) (st2 : PState) (c : Nat)
    (h1 : (jsSplit path).length ≤ f1) (h2 : (jsSplit path).length ≤ f2) :
    putPath cfg f1 st root path data opts = putPath cfg f2 st root path data opts ∧
    putPathDepth cfg f1 st root path data opts ≤ (jsSplit path).length ∧
    (opts.parentSchema = none →
      putPath cfg f1 st root path data opts = (st2, Except.ok c) →
      countEnter st2.trace + countPut st.trace =
        countPut st2.trace + countEnter st.trace) :=
  ⟨putPath_fuel_irrel ((jsSplit path).length) f1 f2 cfg st root path data opts
      le_rfl h1 h2,
   putPathDepth_le f1 cfg st root path data opts h1,
   fun hps h => putPath_balance f1 cfg st root path data opts st2 c hps h⟩

theorem putPath_terminates_bounded_balanced_witness :
    (jsSplit "/a/b").length ≤ 3 ∧ (jsSplit "/a/b").length ≤ 4 ∧
    (putPath cfgNoSchema 3 inlineRootState 0 "/a/b" (JSValue.vnum 2) {} =
        putPath cfgNoSchema 4 inlineRootState 0 "/a/b" (JSValue.vnum 2) {} ∧
      putPathDepth cfgNoSchema 3 inlineRootState 0 "/a/b" (JSValue.vnum 2) {} ≤
        (jsSplit "/a/b").length ∧
      (({} : Opts).parentSchema = none →
        putPath cfgNoSchema 3 inlineRootState 0 "/a/b" (JSValue.vnum 2) {} =
          ((putPath cfgNoSchema 3 inlineRootState 0 "/a/b" (JSValue.vnum 2) {}).1,
            Except.ok 1) →
        countEnter
            (putPath cfgNoSchema 3 inlineRootState 0 "/a/b"
              (JSValue.vnum 2) {}).1.trace +
            countPut inlineRootState.trace =
          countPut
              (putPath cfgNoSchema 3 inlineRootState 0 "/a/b"
                (JSValue.vnum 2) {}).1.trace +
            countEnter inlineRootState.trace)) :=
  ⟨by decide, by decide,
    putPath_terminates_bounded_balanced cfgNoSchema inlineRootState 0 "/a/b"
      (JSValue.vnum 2) {} 3 4
      (putPath cfgNoSchema 3 inlineRootState 0 "/a/b" (JSValue.vnum 2) {}).1 1
      (by decide) (by decide)⟩

/-- C4 (counterexample): writing through a genuinely missing intermediate
container does not create it — it fails.  Against the empty root `{}` the
parent path `"/a"` resolves with non-empty remainder `"a"`, and
`putPath(root, "/a/b", 7)` throws the editor TypeError (reading/assigning a
property of `undefined`) instead of synthesizing the missing `"a"`
container. -/
theorem putPath_missing_intermediate_fails :
    dagResolve emptyRootState.store 0 "/a" = some (0, "a") ∧
    (putPath cfgNoSchema 3 emptyRootState 0 "/a/b" (JSValue.vnum 7) {}).2 =
      Except.error PErr.editError :=
  ⟨rfl, rfl⟩

/-- C7 (counterexample): the put/get round trip does not hold for every
root/path/value.  Against the empty root `{}`, `putPath(root, "/p/q", "v")`
fails with the editor TypeError (the parent container `"p"` does not exist),
so no new root is produced at all. -/
theorem putPath_roundtrip_counterexample :
    (putPath cfgNoSchema 3 emptyRootState 0 "/p/q" (JSValue.vstr "v") {}).2 =
      Except.error PErr.editError :=
  rfl

/-- C7 (amended theorem): the put/get round trip holds when the containers on
the path already exist.  With a root block `{a: <link to c>}` whose field `a`
links to an existing object block, writing a non-null, non-link value at
`"/a/b"` succeeds: the edited child block and a rewritten root (now linking to
the new child) are persisted, the store is extended append-only, and `get` on
the returned new root at the same path yields the written value back.  For a
missing intermediate container the round trip fails instead (see the
counterexample). -/
theorem putPath_link_roundtrip
    (cfg : Config) (fuel : Nat) (st : PState) (root c : Nat) (fs g : JSObj)
    (a b : String) (d : JSValue)
    (hr : storeGet st.store root = some (JSValue.vobj fs))
    (hlook : olookup fs a = some (JSValue.vlink c))
    (hc : storeGet st.store c = some (JSValue.vobj g))
    (ha : '/' ∉ a.data) (hane : a ≠ "")
    (hb : '/' ∉ b.data) (hbne : b ≠ "")
    (hnp : ¬ b.data <+: a.data)
    (hd1 : d ≠ JSValue.vnull) (hd2 : d ≠ JSValue.vundefined)
    (hd3 : ∀ i, d ≠ JSValue.vlink i) :
    ∃ st2 newRoot,
      putPath cfg (fuel + 2) st root (pathOf [a, b]) d {} =
        (st2, Except.ok newRoot) ∧
      st.store <+: st2.store ∧
      (get cfg st2 newRoot (pathOf [a, b]) none).2 = d := by
  have hlast : lastSegOf (pathOf [a, b]) = b := lastSegOf_two ha hb
  have hparent : parentPathOf (pathOf [a, b]) = pathOf [a] := parentPathOf_two ha hb hnp
  have hres : dagResolve st.store root (pathOf [a]) = some (c, "") :=
    dagResolve_single_link hr ha hane hlook hc
  have hsplitb : jsSplit (strCat "/" b) = ["", b] := jsSplit_slash_seg hb
  have hedit1 : putInner (JSValue.vobj g) ["", b] d =
      some (JSValue.vobj (oset g b d)) := by
    rw [putInner_set_two hbne (isNullish_false hd1 hd2)]
    rfl
  have hne1 := pathOf_one_ne_slash hane
  set gE : JSValue := JSValue.vobj (oset g b d) with hgE
  set pr1 := storePut st.store gE with hpr1
  have hstep1 : putPathStep cfg st root (pathOf [a, b]) d {} =
      Step.next
        { st with
          store := pr1.1
          trace := st.trace ++
            [Eff.enter (pathOf [a, b]), Eff.resolveCall (pathOf [a]),
             Eff.getBlock c, Eff.putBlock gE] }
        (pathOf [a]) (JSValue.vlink pr1.2) {} := by
    simp only [putPathStep, hlast, hparent, hres, hc, hsplitb, hedit1,
      hne1.1, hne1.2]
    simp
  -- step 2
  have hpre1 : st.store <+: pr1.1 := storePut_prefix st.store gE
  have hr1 : storeGet pr1.1 root = some (JSValue.vobj fs) := storeGet_mono hpre1 hr
  have hlast2 : lastSegOf (pathOf [a]) = a := lastSegOf_single ha
  have hparent2 : parentPathOf (pathOf [a]) = "" := parentPathOf_single ha
  have hres2 : dagResolve pr1.1 root "" = some (root, "") := dagResolve_empty_path hr1
  have hsplita : jsSplit (strCat "/" a) = ["", a] := jsSplit_slash_seg ha
  have hedit2 : putInner (JSValue.vobj fs) ["", a] (JSValue.vlink pr1.2) =
      some (JSValue.vobj (oset fs a (JSValue.vlink pr1.2))) := by
    rw [putInner_set_two hane
      (isNullish_false (fun h => JSValue.noConfusion h) (fun h => JSValue.noConfusion h))]
    rfl
  set fsE : JSValue := JSValue.vobj (oset fs a (JSValue.vlink pr1.2)) with hfsE
  set st1 : PState :=
    { st with
      store := pr1.1
      trace := st.trace ++
        [Eff.enter (pathOf [a, b]), Eff.resolveCall (pathOf [a]),
         Eff.getBlock c, Eff.putBlock gE] } with hst1
  set pr2 := storePut pr1.1 fsE with hpr2
  have hstore1 : st1.store = pr1.1 := rfl
  have hstep2 : putPathStep cfg st1 root (pathOf [a]) (JSValue.vlink pr1.2) {} =
      Step.done
        { st1 with
          store := pr2.1
          trace := st1.trace ++
            [Eff.enter (pathOf [a]), Eff.resolveCall "",
             Eff.getBlock root, Eff.putBlock fsE] }
        (Except.ok pr2.2) := by
    simp only [putPathStep, hlast2, hparent2, hstore1, hres2, hr1, hsplita, hedit2]
    simp
  have hrun : putPath cfg (fuel + 2) st root (pathOf [a, b]) d {} =
      ({ st1 with
          store := pr2.1
          trace := st1.trace ++
            [Eff.enter (pathOf [a]), Eff.resolveCall "",
             Eff.getBlock root, Eff.putBlock fsE] },
       Except.ok pr2.2) := by
    have hf2 : fuel + 2 = (fuel + 1) + 1 := rfl
    rw [hf2]
    simp only [putPath, hstep1, hstep2]
  refine ⟨_, _, hrun, ?_, ?_⟩
  · exact hpre1.trans ( storePut_prefix pr1.1 fsE)
  · have hget2 : storeGet pr2.1 pr2.2 = some fsE := storePut_get pr1.1 fsE
    have hgetc1 : storeGet pr2.1 pr1.2 = some gE :=
      storeGet_mono ( storePut_prefix pr1.1 fsE) (storePut_get st.store gE)
    have hfilter : (splitSlash (pathOf [a, b]).data).filter (fun s => s != "") = [a, b] := by
      rw [show splitSlash (pathOf [a, b]).data = ["", a, b] from jsSplit_two ha hb]
      simp [hane, hbne]
    have hwalkSegs : walkSegs pr2.1 fsE [a, b] = some d := by
      simp only [hfsE, hgE, walkSegs, derefOnce, getFieldPure, olookup_oset, hgetc1]
    have hdag : dagGetPath pr2.1 pr2.2 (pathOf [a, b]) = some d := by
      simp only [dagGetPath, hget2, hfilter, hwalkSegs]
      exact derefOnce_nonlink hd3
    simp [get, hdag, applySchema]

theorem putPath_link_roundtrip_witness :
    storeGet linkRootState.store 0 =
      some (JSValue.vobj (JSObj.ocons "a" (JSValue.vlink 1) JSObj.onil)) ∧
    storeGet linkRootState.store 1 = some (JSValue.vobj JSObj.onil) ∧
    ∃ st2 newRoot,
      putPath cfgNoSchema 2 linkRootState 0 (pathOf ["a", "b"]) (JSValue.vnum 5) {} =
        (st2, Except.ok newRoot) ∧
      linkRootState.store <+: st2.store ∧
      (get cfgNoSchema st2 newRoot (pathOf ["a", "b"]) none).2 = JSValue.vnum 5 :=
  ⟨rfl, rfl,
    putPath_link_roundtrip cfgNoSchema 0 linkRootState 0 1
      (JSObj.ocons "a" (JSValue.vlink 1) JSObj.onil) JSObj.onil "a" "b" (JSValue.vnum 5)
      rfl rfl rfl (by decide) (by decide) (by decide) (by decide) (by decide)
      (by decide) (by decide) (fun i h => JSValue.noConfusion h)⟩

/-- C6: when `leafSchema` is configured and the typed-to-representation
transform of the supplied non-null value is `undefined`, `putPath` throws
`invalidLeafData` immediately and the state is unchanged except for the
recorded invocation itself: no resolve, no block read, no block write and no
upload has happened (the trace gains only the `enter` marker, and the store
and pointer service are untouched). -/
theorem putPath_leafSchema_failure_aborts_clean
    (cfg : Config) (fuel : Nat) (st : PState) (root : Nat) (path : String)
    (data : JSValue) (opts : Opts) (nm : String)
    (hnm : opts.leafSchema = some nm)
    (hfail : (cfg.env nm).toRep data = JSValue.vundefined)
    (hnonnull : data ≠ JSValue.vnull) :
    putPath cfg (fuel + 1) st root path data opts =
      ({ st with trace := st.trace ++ [Eff.enter path] },
       Except.error PErr.invalidLeafData) := by
  simp [putPath, putPathStep, hnm, hfail]

/-- Witness for C6 at a concrete input. -/
theorem putPath_leafSchema_failure_aborts_clean_witness :
    (cfgRejectAll.env "S").toRep (JSValue.vstr "x") = JSValue.vundefined ∧
    putPath cfgRejectAll 5 emptyRootState 0 "/k" (JSValue.vstr "x")
        { leafSchema := some "S" } =
      ({ emptyRootState with trace := [Eff.enter "/k"] },
       Except.error PErr.invalidLeafData) :=
  ⟨rfl, putPath_leafSchema_failure_aborts_clean cfgRejectAll 4 emptyRootState 0 "/k"
    (JSValue.vstr "x") { leafSchema := some "S" } "S" rfl rfl (by decide)⟩

/-- C8: when local resolution of root/path fails and the gateway is absent
or its fetch fails, `get` does not throw: it returns the `undefined` value
to the caller. -/
theorem get_absorbs_retrieval_failure
    (cfg : Config) (st : PState) (root : Nat) (path : String)
    (hlocal : dagGetPath st.store root path = none)
    (hgw : cfg.gateway = none ∨ ∃ gw, cfg.gateway = some gw ∧ gw root path = none) :
    get cfg st root path none = (st, JSValue.vundefined) := by
  rcases hgw with h | ⟨gw, hg, hf⟩
  · simp [get, hlocal, h, applySchema]
  · simp [get, hlocal, hg, hf, applySchema]

/-- Witness for C8 at a concrete input. -/
theorem get_absorbs_retrieval_failure_witness :
    dagGetPath emptyRootState.store 5 "/x" = none ∧
    get cfgNoSchema emptyRootState 5 "/x" none = (emptyRootState, JSValue.vundefined) :=
  ⟨rfl, get_absorbs_retrieval_failure cfgNoSchema emptyRootState 5 "/x" rfl (Or.inl rfl)⟩

/-- C9: the `resolveRoot` fallback chain.  (1) When the pointer document for
the owner as supplied holds a root, it is parsed and returned after a single
pointer query.  (2) When that document has no root but the lower-cased owner
document does, the lower-cased document's root is returned, the two queries
happening in checksum-then-lowercase order.  (3) When neither holds a root, a
freshly created empty node is stored and its CID returned, and the pointer
service is left unchanged (no binding committed). -/
theorem resolveRoot_fallback_chain :
    (∀ st owner parcel s c,
        List.lookup (owner, parcel) st.ceramic = some s → s ≠ "" →
        parseCid s = some c →
        resolveRoot st owner parcel =
          ({ st with trace := st.trace ++ [Eff.ceramicResolve owner parcel] },
           Except.ok c)) ∧
    (∀ st owner parcel s c,
        strTruthy (List.lookup (owner, parcel) st.ceramic) = false →
        List.lookup (toLowerStr owner, parcel) st.ceramic = some s → s ≠ "" →
        parseCid s = some c →
        resolveRoot st owner parcel =
          ({ st with trace := st.trace ++
              [Eff.ceramicResolve owner parcel,
               Eff.ceramicResolve (toLowerStr owner) parcel] },
           Except.ok c)) ∧
    (∀ st owner parcel,
        strTruthy (List.lookup (owner, parcel) st.ceramic) = false →
        strTruthy (List.lookup (toLowerStr owner, parcel) st.ceramic) = false →
        resolveRoot st owner parcel =
          ({ st with
              store := (storePut st.store (JSValue.vobj JSObj.onil)).1,
              trace := st.trace ++
                [Eff.ceramicResolve owner parcel,
                 Eff.ceramicResolve (toLowerStr owner) parcel,
                 Eff.putBlock (JSValue.vobj JSObj.onil)] },
           Except.ok (storePut st.store (JSValue.vobj JSObj.onil)).2)) := by
  refine ⟨?_, ?_, ?_⟩
  · intro st owner parcel s c h1 hne hp
    have ht : strTruthy (some s) = true := by simp [strTruthy, hne]
    simp [resolveRoot, h1, ht, hp]
  · intro st owner parcel s c h1 h2 hne hp
    have ht : strTruthy (some s) = true := by simp [strTruthy, hne]
    simp [resolveRoot, h1, h2, ht, hp]
  · intro st owner parcel h1 h2
    simp [resolveRoot, h1, h2]

/-- Witness for C9 at a concrete input (the lowercase-fallback conjunct):
owner `"0xABC"` falls back to `"0xabc"`, whose document holds `"bafy42"`. -/
theorem resolveRoot_fallback_chain_witness :
    List.lookup ("0xabc", "7")
        (PState.ceramic { store := [], ceramic := [(("0xabc", "7"), "bafy42")], trace := [] }) =
      some "bafy42" ∧
    resolveRoot { store := [], ceramic := [(("0xabc", "7"), "bafy42")], trace := [] }
        "0xABC" "7" =
      ({ store := [], ceramic := [(("0xabc", "7"), "bafy42")],
         trace := [Eff.ceramicResolve "0xABC" "7", Eff.ceramicResolve "0xabc" "7"] },
       Except.ok 42) :=
  ⟨rfl, resolveRoot_fallback_chain.2.1
    { store := [], ceramic := [(("0xabc", "7"), "bafy42")], trace := [] }
    "0xABC" "7" "bafy42" 42 rfl rfl (by decide) rfl⟩

/-- C10: when neither pointer document holds a root, `resolveRoot` is not
read-only — it performs a block-store write of the empty node (recorded in
the trace), after which the empty node is present in the local store (a
genuinely new entry when it was absent) — while the pointer-service state is
left exactly as it was. -/
theorem resolveRoot_writes_empty_root
    (st : PState) (owner parcel : String)
    (h1 : strTruthy (List.lookup (owner, parcel) st.ceramic) = false)
    (h2 : strTruthy (List.lookup (toLowerStr owner, parcel) st.ceramic) = false) :
    (resolveRoot st owner parcel).1.ceramic = st.ceramic ∧
    JSValue.vobj JSObj.onil ∈ (resolveRoot st owner parcel).1.store ∧
    (resolveRoot st owner parcel).1.trace =
      st.trace ++ [Eff.ceramicResolve owner parcel,
                   Eff.ceramicResolve (toLowerStr owner) parcel,
                   Eff.putBlock (JSValue.vobj JSObj.onil)] ∧
    (JSValue.vobj JSObj.onil ∉ st.store →
      (resolveRoot st owner parcel).1.store.length = st.store.length + 1) := by
  refine ⟨?_, ?_, ?_, ?_⟩ <;>
    simp [resolveRoot, h1, h2, storePut_mem, storePut_fresh_length]
  intro hnm
  exact storePut_fresh_length hnm

/-- Witness for C10 at a concrete input. -/
theorem resolveRoot_writes_empty_root_witness :
    strTruthy (List.lookup ("0xABC", "7")
      (PState.ceramic { store := [JSValue.vnum 1], ceramic := [], trace := [] })) = false ∧
    JSValue.vobj JSObj.onil ∈
      (resolveRoot { store := [JSValue.vnum 1], ceramic := [], trace := [] } "0xABC" "7").1.store ∧
    (resolveRoot { store := [JSValue.vnum 1], ceramic := [], trace := [] } "0xABC" "7").1.ceramic = [] ∧
    (resolveRoot { store := [JSValue.vnum 1], ceramic := [], trace := [] } "0xABC" "7").1.store.length = 2 := by
  have h := resolveRoot_writes_empty_root
    { store := [JSValue.vnum 1], ceramic := [], trace := [] } "0xABC" "7" rfl rfl
  refine ⟨rfl, h.2.1, h.1, ?_⟩
  rw [h.2.2.2 (by decide)]
  rfl

/-- C4 (amended theorem): when the resolved remainder is a single segment
naming an inline container that already exists, `putPath` places the value at
the addressed field inside it (and reading the path back yields the value);
it never creates missing intermediate containers — on a missing intermediate
it fails with the editor TypeError (see the counterexample). -/
theorem putPath_nested_existing
    (cfg : Config) (fuel : Nat) (st : PState) (root : Nat) (fs g : JSObj)
    (a b : String) (d : JSValue)
    (hr : storeGet st.store root = some (JSValue.vobj fs))
    (hlook : olookup fs a = some (JSValue.vobj g))
    (ha : '/' ∉ a.data) (hane : a ≠ "")
    (hb : '/' ∉ b.data) (hbne : b ≠ "")
    (hnp : ¬ b.data <+: a.data)
    (hd1 : d ≠ JSValue.vnull) (hd2 : d ≠ JSValue.vundefined)
    (hd3 : ∀ c, d ≠ JSValue.vlink c) :
    dagResolve st.store root (parentPathOf (pathOf [a, b])) = some (root, a) ∧
    putPath cfg (fuel + 1) st root (pathOf [a, b]) d {} =
      ({ st with
          store := (storePut st.store
            (JSValue.vobj (oset fs a (JSValue.vobj (oset g b d))))).1,
          trace := st.trace ++
            [Eff.enter (pathOf [a, b]), Eff.resolveCall (pathOf [a]),
             Eff.getBlock root,
             Eff.putBlock (JSValue.vobj (oset fs a (JSValue.vobj (oset g b d))))] },
       Except.ok (storePut st.store
         (JSValue.vobj (oset fs a (JSValue.vobj (oset g b d))))).2) ∧
    (get cfg
      { st with
          store := (storePut st.store
            (JSValue.vobj (oset fs a (JSValue.vobj (oset g b d))))).1,
          trace := st.trace ++
            [Eff.enter (pathOf [a, b]), Eff.resolveCall (pathOf [a]),
             Eff.getBlock root,
             Eff.putBlock (JSValue.vobj (oset fs a (JSValue.vobj (oset g b d))))] }
      (storePut st.store
        (JSValue.vobj (oset fs a (JSValue.vobj (oset g b d))))).2
      (pathOf [a, b]) none).2 = d := by
  have hnl : ∀ c, JSValue.vobj g ≠ JSValue.vlink c := fun c h => JSValue.noConfusion h
  have hres : dagResolve st.store root (pathOf [a]) = some (root, a) :=
    dagResolve_single_inline hr ha hane hlook hnl
  have hparent : parentPathOf (pathOf [a, b]) = pathOf [a] := parentPathOf_two ha hb hnp
  have hlast : lastSegOf (pathOf [a, b]) = b := lastSegOf_two ha hb
  have hnested : strCat "/" (strCat a (strCat "/" b)) = pathOf [a, b] := by
    apply congrArg String.mk
    rfl
  have hedit : putInner (JSValue.vobj fs) ["", a, b] d =
      some (JSValue.vobj (oset fs a (JSValue.vobj (oset g b d)))) := by
    rw [putInner]
    simp [getFieldE, hlook, putInner, isNullish_false hd1 hd2, setField]
  have hpp2 : replaceFirst (pathOf [a]) a = "/" := replaceFirst_strip_seg ha hane
  have hsplit2 : jsSplit (pathOf [a, b]) = ["", a, b] := jsSplit_two ha hb
  have hget : dagGetPath
      (storePut st.store (JSValue.vobj (oset fs a (JSValue.vobj (oset g b d))))).1
      (storePut st.store (JSValue.vobj (oset fs a (JSValue.vobj (oset g b d))))).2
      (pathOf [a, b]) = some d := by
    rw [dagGetPath, storePut_get]
    have hfilter : (splitSlash (pathOf [a, b]).data).filter (fun s => s != "") = [a, b] := by
      rw [show splitSlash (pathOf [a, b]).data = ["", a, b] from hsplit2]
      simp [hane, hbne]
    rw [hfilter]
    simp only [walkSegs, derefOnce, getFieldPure, olookup_oset]
  have hrun : putPath cfg (fuel + 1) st root (pathOf [a, b]) d {} =
      ({ st with
          store := (storePut st.store
            (JSValue.vobj (oset fs a (JSValue.vobj (oset g b d))))).1,
          trace := st.trace ++
            [Eff.enter (pathOf [a, b]), Eff.resolveCall (pathOf [a]),
             Eff.getBlock root,
             Eff.putBlock (JSValue.vobj (oset fs a (JSValue.vobj (oset g b d))))] },
       Except.ok (storePut st.store
         (JSValue.vobj (oset fs a (JSValue.vobj (oset g b d))))).2) := by
    rw [putPath]
    simp only [putPathStep, hlast, hparent, hres, hr, hnested, hsplit2, hedit,
      hpp2, hane, hbne]
    simp [hane]
  refine ⟨hparent ▸ hres, hrun, ?_⟩
  simp [get, hget, applySchema]

/-- Witness for C4 at a concrete input: root `{a: {}}`, writing `7` at
`"/a/b"` (remainder `"a"` is non-empty) succeeds and reads back. -/
theorem putPath_nested_existing_witness :
    dagResolve nestedRootState.store 0 (parentPathOf (pathOf ["a", "b"])) = some (0, "a") ∧
    (putPath cfgNoSchema 3 nestedRootState 0 (pathOf ["a", "b"]) (JSValue.vnum 7) {}).2 =
      Except.ok 1 ∧
    (get cfgNoSchema
      (putPath cfgNoSchema 3 nestedRootState 0 (pathOf ["a", "b"]) (JSValue.vnum 7) {}).1
      1 (pathOf ["a", "b"]) none).2 = JSValue.vnum 7 := by
  have h := putPath_nested_existing cfgNoSchema 2 nestedRootState 0
    (objOf [("a", JSValue.vobj JSObj.onil)]) JSObj.onil "a" "b" (JSValue.vnum 7)
    rfl rfl (by decide) (by decide) (by decide) (by decide) (by decide)
    (by decide) (by decide) (fun c h => JSValue.noConfusion h)
  refine ⟨h.1, ?_, ?_⟩
  · rw [h.2.1]
    rfl
  · rw [h.2.1]
    exact h.2.2

/-- C5: with `parentSchema` configured, a failed validation of the edited
non-null parent does not error immediately.  First conjunct (fallback
succeeds): the offending leaf value is persisted as its own block, a CID link
replaces the inline value at the same field, the re-validated parent is
stored — the stored parent holds the link, and `get` on the same path still
yields the original leaf value (through the link).  Second conjunct: when
the re-validation of the link-carrying parent also fails, `putPath` throws
the schema-mismatch error. -/
theorem putPath_parentSchema_indirect_link :
    (∀ (cfg : Config) (fuel : Nat) (st : PState) (root : Nat) (fs : JSObj)
        (k : String) (d : JSValue) (nm : String),
      storeGet st.store root = some (JSValue.vobj fs) →
      '/' ∉ k.data → k ≠ "" →
      d ≠ JSValue.vnull → d ≠ JSValue.vundefined →
      (cfg.env nm).toRep (JSValue.vobj (oset fs k d)) = JSValue.vundefined →
      (cfg.env nm).toRep
          (JSValue.vobj (oset fs k (JSValue.vlink (storePut st.store d).2))) ≠
        JSValue.vundefined →
      putPath cfg (fuel + 1) st root (pathOf [k]) d { parentSchema := some nm } =
        ({ st with
            store := (storePut (storePut st.store d).1
              (JSValue.vobj (oset fs k (JSValue.vlink (storePut st.store d).2)))).1,
            trace := st.trace ++
              [Eff.enter (pathOf [k]), Eff.resolveCall "", Eff.getBlock root,
               Eff.putBlock d,
               Eff.putBlock (JSValue.vobj (oset fs k (JSValue.vlink (storePut st.store d).2)))] },
         Except.ok (storePut (storePut st.store d).1
           (JSValue.vobj (oset fs k (JSValue.vlink (storePut st.store d).2)))).2) ∧
      olookup (oset fs k (JSValue.vlink (storePut st.store d).2)) k =
        some (JSValue.vlink (storePut st.store d).2) ∧
      storeGet (storePut (storePut st.store d).1
          (JSValue.vobj (oset fs k (JSValue.vlink (storePut st.store d).2)))).1
          (storePut (storePut st.store d).1
            (JSValue.vobj (oset fs k (JSValue.vlink (storePut st.store d).2)))).2 =
        some (JSValue.vobj (oset fs k (JSValue.vlink (storePut st.store d).2))) ∧
      (get cfg
        { st with
            store := (storePut (storePut st.store d).1
              (JSValue.vobj (oset fs k (JSValue.vlink (storePut st.store d).2)))).1,
            trace := st.trace ++
              [Eff.enter (pathOf [k]), Eff.resolveCall "", Eff.getBlock root,
               Eff.putBlock d,
               Eff.putBlock (JSValue.vobj (oset fs k (JSValue.vlink (storePut st.store d).2)))] }
        (storePut (storePut st.store d).1
          (JSValue.vobj (oset fs k (JSValue.vlink (storePut st.store d).2)))).2
        (pathOf [k]) none).2 = d) ∧
    (∀ (cfg : Config) (fuel : Nat) (st : PState) (root : Nat) (fs : JSObj)
        (k : String) (d : JSValue) (nm : String),
      storeGet st.store root = some (JSValue.vobj fs) →
      '/' ∉ k.data → k ≠ "" →
      d ≠ JSValue.vnull → d ≠ JSValue.vundefined →
      (cfg.env nm).toRep (JSValue.vobj (oset fs k d)) = JSValue.vundefined →
      (cfg.env nm).toRep
          (JSValue.vobj (oset fs k (JSValue.vlink (storePut st.store d).2))) =
        JSValue.vundefined →
      (putPath cfg (fuel + 1) st root (pathOf [k]) d { parentSchema := some nm }).2 =
        Except.error PErr.invalidParentData) := by
  constructor
  · intro cfg fuel st root fs k d nm hr hk hkne hd1 hd2 hrep1 hrep2
    have hlast : lastSegOf (pathOf [k]) = k := by
      rw [pathOf_single]
      exact lastSegOf_single hk
    have hparent : parentPathOf (pathOf [k]) = "" := by
      rw [pathOf_single]
      exact parentPathOf_single hk
    have hres : dagResolve st.store root "" = some (root, "") := dagResolve_empty_path hr
    have hsplit : jsSplit (strCat "/" k) = ["", k] := jsSplit_slash_seg hk
    have hedit : putInner (JSValue.vobj fs) ["", k] d =
        some (JSValue.vobj (oset fs k d)) := by
      rw [putInner_set_two hkne (isNullish_false hd1 hd2)]
      rfl
    have hedit2 : ∀ c, putInner (JSValue.vobj (oset fs k d)) ["", k] (JSValue.vlink c) =
        some (JSValue.vobj (oset fs k (JSValue.vlink c))) := by
      intro c
      rw [putInner_set_two hkne (by rfl)]
      simp [setField, oset_oset]
    have hgetback : (dagGetPath (storePut (storePut st.store d).1
        (JSValue.vobj (oset fs k (JSValue.vlink (storePut st.store d).2)))).1
        (storePut (storePut st.store d).1
          (JSValue.vobj (oset fs k (JSValue.vlink (storePut st.store d).2)))).2
        (pathOf [k])) = some d := by
      rw [dagGetPath, storePut_get]
      have hfilter : (splitSlash (pathOf [k]).data).filter (fun s => s != "") = [k] := by
        rw [show splitSlash (pathOf [k]).data = ["", k] by
          rw [pathOf_single]
          exact jsSplit_slash_seg hk]
        simp [hkne]
      rw [hfilter]
      simp only [walkSegs, derefOnce, getFieldPure, olookup_oset]
      exact storeGet_mono
        ( storePut_prefix (storePut st.store d).1
          (JSValue.vobj (oset fs k (JSValue.vlink (storePut st.store d).2))))
        (storePut_get st.store d)
    have hrun : putPath cfg (fuel + 1) st root (pathOf [k]) d { parentSchema := some nm } =
        ({ st with
            store := (storePut (storePut st.store d).1
              (JSValue.vobj (oset fs k (JSValue.vlink (storePut st.store d).2)))).1,
            trace := st.trace ++
              [Eff.enter (pathOf [k]), Eff.resolveCall "", Eff.getBlock root,
               Eff.putBlock d,
               Eff.putBlock (JSValue.vobj (oset fs k (JSValue.vlink (storePut st.store d).2)))] },
         Except.ok (storePut (storePut st.store d).1
           (JSValue.vobj (oset fs k (JSValue.vlink (storePut st.store d).2)))).2) := by
      rw [putPath]
      simp only [putPathStep, hlast, hparent, hres, hr, hsplit, hedit, hedit2,
        oset_oset, hrep1, truthy]
      simp [hrep2]
    refine ⟨hrun, olookup_oset fs k _, storePut_get _ _, ?_⟩
    simp [get, hgetback, applySchema]
  · intro cfg fuel st root fs k d nm hr hk hkne hd1 hd2 hrep1 hrep2
    have hlast : lastSegOf (pathOf [k]) = k := by
      rw [pathOf_single]
      exact lastSegOf_single hk
    have hparent : parentPathOf (pathOf [k]) = "" := by
      rw [pathOf_single]
      exact parentPathOf_single hk
    have hres : dagResolve st.store root "" = some (root, "") := dagResolve_empty_path hr
    have hsplit : jsSplit (strCat "/" k) = ["", k] := jsSplit_slash_seg hk
    have hedit : putInner (JSValue.vobj fs) ["", k] d =
        some (JSValue.vobj (oset fs k d)) := by
      rw [putInner_set_two hkne (isNullish_false hd1 hd2)]
      rfl
    have hedit2 : ∀ c, putInner (JSValue.vobj (oset fs k d)) ["", k] (JSValue.vlink c) =
        some (JSValue.vobj (oset fs k (JSValue.vlink c))) := by
      intro c
      rw [putInner_set_two hkne (by rfl)]
      simp [setField, oset_oset]
    rw [putPath]
    simp only [putPathStep, hlast, hparent, hres, hr, hsplit, hedit, hedit2,
      oset_oset, hrep1, truthy]
    simp [hrep2]

/-- Witness for C5 at a concrete input: under the `"LinkOnly"` schema, the
inline leaf `"big"` is rejected, stored as block 1, linked from the parent
(block 2, `{x: link 1}`), and reading `"/x"` back yields `"big"`. -/
theorem putPath_parentSchema_indirect_link_witness :
    (cfgLinkOnly.env "LinkOnly").toRep
        (JSValue.vobj (oset JSObj.onil "x" (JSValue.vstr "big"))) = JSValue.vundefined ∧
    (putPath cfgLinkOnly 2 emptyRootState 0 (pathOf ["x"]) (JSValue.vstr "big")
        { parentSchema := some "LinkOnly" }).2 = Except.ok 2 ∧
    storeGet (putPath cfgLinkOnly 2 emptyRootState 0 (pathOf ["x"]) (JSValue.vstr "big")
        { parentSchema := some "LinkOnly" }).1.store 2 =
      some (JSValue.vobj (JSObj.ocons "x" (JSValue.vlink 1) JSObj.onil)) ∧
    (get cfgLinkOnly
      (putPath cfgLinkOnly 2 emptyRootState 0 (pathOf ["x"]) (JSValue.vstr "big")
        { parentSchema := some "LinkOnly" }).1
      2 (pathOf ["x"]) none).2 = JSValue.vstr "big" := by
  have h := putPath_parentSchema_indirect_link.1 cfgLinkOnly 1 emptyRootState 0
    JSObj.onil "x" (JSValue.vstr "big") "LinkOnly"
    rfl (by decide) (by decide) (by decide) (by decide) rfl (by decide)
  refine ⟨rfl, ?_, ?_, ?_⟩
  · rw [h.1]
    rfl
  · rw [h.1]
    exact h.2.2.1
  · rw [h.1]
    exact h.2.2.2

end GeoWeb
